import Mathlib

/-
Shallow embedding of src/app/processor.py (PDF form-filling pipeline).
Python strings are modelled as List Char, floats as rationals, and the
regular expressions of the source as executable decision procedures with
the backtracking semantics of the re module on the concrete patterns used.
-/

namespace PdfFill

/-- ASCII whitespace, matching Python str.strip and the regex class backslash-s
for the ASCII inputs handled by the program. -/
def isSpaceChar (c : Char) : Bool :=
  c = ' ' || c = '\t' || c = '\n' || c = '\r' || c = '\x0b' || c = '\x0c'

/-- Model of Python str.strip: drop leading and trailing whitespace. -/
def pyStrip (l : List Char) : List Char :=
  ((l.dropWhile isSpaceChar).reverse.dropWhile isSpaceChar).reverse

/-- Model of re.sub removing every non-digit character: the digits of the string. -/
def digitsOf (l : List Char) : List Char := l.filter Char.isDigit

/-- Character class of the phone patterns: digit, whitespace, dash, parens, dot. -/
def isPhoneChar (c : Char) : Bool :=
  c.isDigit || isSpaceChar c || c = '-' || c = '(' || c = ')' || c = '.'

/-- Character class removed by the placeholder cleanup in the source:
parentheses, dashes, whitespace and dots (no digits). -/
def isPhonePunct (c : Char) : Bool :=
  c = '(' || c = ')' || c = '-' || c = '.' || isSpaceChar c

/-- Model of re.sub removing parentheses, dashes, whitespace and dots. -/
def stripPhonePunct (l : List Char) : List Char := l.filter (fun c => !(isPhonePunct c))

/-- Placeholder pattern 1 of the source, anchored match: one or more characters
from the punctuation class up to the end of the string. -/
def placeholderOnlyPunct (l : List Char) : Bool := !(l.isEmpty) && l.all isPhonePunct

/-- Placeholder pattern 2 of the source, anchored match: an open paren, any
characters other than a close paren, a close paren, then no digits to the end. -/
def placeholderParenNoDigits (l : List Char) : Bool :=
  match l with
  | '(' :: rest =>
      let a := rest.takeWhile (fun c => !(c = ')'))
      match rest.drop a.length with
      | ')' :: tail => tail.all (fun c => !(c.isDigit))
      | _ => false
  | _ => false

/-- Placeholder pattern 3 of the source, anchored match: no digits at all. -/
def placeholderNoDigits (l : List Char) : Bool := l.all (fun c => !(c.isDigit))

/-- Disjunction of the three placeholder patterns checked by the source. -/
def isPlaceholderPhone (l : List Char) : Bool :=
  placeholderOnlyPunct l || placeholderParenNoDigits l || placeholderNoDigits l

/-- Consume exactly n digit characters, returning the remainder. -/
def takeDigits : Nat → List Char → Option (List Char)
  | 0, l => some l
  | n + 1, c :: l => if c.isDigit then takeDigits n l else none
  | _ + 1, [] => none

/-- Consume an optional dash, as the regex dash-question does when a digit must follow. -/
def optDash (l : List Char) : List Char :=
  match l with
  | '-' :: t => t
  | l => l

/-- Consume one expected literal character. -/
def expectChar (c : Char) (l : List Char) : Option (List Char) :=
  match l with
  | d :: t => if d = c then some t else none
  | [] => none

/-- Consume one whitespace character, as the regex backslash-s does. -/
def expectSpace (l : List Char) : Option (List Char) :=
  match l with
  | d :: t => if isSpaceChar d then some t else none
  | [] => none

/-- Consume one date separator, slash or dash. -/
def isDateSep (c : Char) : Bool := c = '/' || c = '-'

/-- Consume one expected date separator character. -/
def expectSep (l : List Char) : Option (List Char) :=
  match l with
  | d :: t => if isDateSep d then some t else none
  | [] => none

/-- FIELD_VALIDATION phone pattern, full anchored match: one or more phone characters. -/
def phoneValid (l : List Char) : Bool := !(l.isEmpty) && l.all isPhoneChar

/-- FIELD_VALIDATION ssn pattern, full anchored match: three digits, optional
dash, two digits, optional dash, four digits. -/
def ssnValid (l : List Char) : Bool :=
  (((takeDigits 3 l).map optDash).bind (takeDigits 2) |>.map optDash |>.bind (takeDigits 4)
    |>.bind (fun r => if r.isEmpty then some () else none)).isSome

/-- FIELD_VALIDATION ein pattern, full anchored match: two digits, optional dash,
seven digits. -/
def einValid (l : List Char) : Bool :=
  (((takeDigits 2 l).map optDash).bind (takeDigits 7)
    |>.bind (fun r => if r.isEmpty then some () else none)).isSome

/-- FIELD_VALIDATION dob pattern, full anchored match: one or two digits, a
separator, one or two digits, a separator, two to four digits. -/
def dobValid (l : List Char) : Bool :=
  let d1 := l.takeWhile Char.isDigit
  let r1 := l.drop d1.length
  decide (1 ≤ d1.length) && decide (d1.length ≤ 2) &&
  (match r1 with
   | s1 :: r2 =>
     isDateSep s1 &&
     (let d2 := r2.takeWhile Char.isDigit
      let r3 := r2.drop d2.length
      decide (1 ≤ d2.length) && decide (d2.length ≤ 2) &&
      (match r3 with
       | s2 :: r4 => isDateSep s2 && r4.all Char.isDigit && decide (2 ≤ r4.length) && decide (r4.length ≤ 4)
       | [] => false))
   | [] => false)

/-- Character class of the local part of the email patterns. -/
def isEmailLocalChar (c : Char) : Bool :=
  c.isAlphanum || c = '.' || c = '_' || c = '%' || c = '+' || c = '-'

/-- Character class of the domain part of the email patterns. -/
def isEmailDomainChar (c : Char) : Bool := c.isAlphanum || c = '.' || c = '-'

/-- Anchored domain part: one or more domain characters, a dot, then two or
more letters up to the end of the string. -/
def emailDomainFull (l : List Char) : Bool :=
  (List.range l.length).any (fun m =>
    decide (0 < m) && (l.take m).all isEmailDomainChar && (l.get? m == some '.') &&
    decide (2 ≤ (l.drop (m + 1)).length) && (l.drop (m + 1)).all Char.isAlpha)

/-- FIELD_VALIDATION email pattern, full anchored match. -/
def emailValid (l : List Char) : Bool :=
  (List.range l.length).any (fun i =>
    decide (0 < i) && (l.take i).all isEmailLocalChar && (l.get? i == some '@') &&
    emailDomainFull (l.drop (i + 1)))

/-- The field types carrying a FIELD_VALIDATION pattern in the source. -/
def FIELD_VALIDATION_keys : List String := ["email", "phone", "ssn", "ein", "dob"]

/-- Dispatch of the FIELD_VALIDATION patterns by field type, anchored match. -/
def validationMatch (ft : String) (l : List Char) : Bool :=
  if ft = "email" then emailValid l
  else if ft = "phone" then phoneValid l
  else if ft = "ssn" then ssnValid l
  else if ft = "ein" then einValid l
  else if ft = "dob" then dobValid l
  else false

/-- Model of validate_input_values: keep the entries that are non-empty after
trimming and, when a validation pattern exists, match it; store the trimmed value. -/
def validate_input_values (values : List (String × List Char)) : List (String × List Char) :=
  values.filterMap (fun p =>
    let v := pyStrip p.2
    if v.isEmpty then none
    else if FIELD_VALIDATION_keys.contains p.1 then
      if validationMatch p.1 v then some (p.1, v) else none
    else some (p.1, v))

/-- Render ten digits in the form used by the source formatter for phone numbers. -/
def usPhoneRender (d : List Char) : List Char :=
  '(' :: d.take 3 ++ ')' :: ' ' :: (d.drop 3).take 3 ++ '-' :: d.drop 6

/-- Model of format_field_value. -/
def format_field_value (ft : String) (value : List Char) : List Char :=
  if ft = "phone" then
    let cleaned := digitsOf value
    if cleaned.length = 10 then usPhoneRender cleaned
    else if cleaned.length = 11 ∧ cleaned.get? 0 = some '1' then usPhoneRender (cleaned.drop 1)
    else value
  else if ft = "ssn" then
    let cleaned := digitsOf value
    if cleaned.length = 9 then cleaned.take 3 ++ '-' :: (cleaned.drop 3).take 2 ++ '-' :: cleaned.drop 5
    else value
  else if ft = "ein" then
    let cleaned := digitsOf value
    if cleaned.length = 9 then cleaned.take 2 ++ '-' :: cleaned.drop 2 else value
  else if ft = "address" then pyStrip value
  else value

/-- Search helper: some contiguous run of n characters of class p occurs in l,
which is the search semantics of a class repeated at least n times. -/
def hasRun (p : Char → Bool) (n : Nat) (l : List Char) : Bool :=
  l.tails.any (fun t => decide (n ≤ t.length) && (t.take n).all p)

/-- Match, at the current position, of the ssn detection pattern with the first
group consuming k digits: k digits, optional dash, two digits, optional dash,
four digits; the rest of the string is unconstrained. -/
def ssnDetectChain (k : Nat) (l : List Char) : Bool :=
  (((takeDigits k l).map optDash).bind (takeDigits 2) |>.map optDash |>.bind (takeDigits 4)).isSome

/-- Match at the current position of the ssn detection pattern: two or three
digits, optional dash, two digits, optional dash, four digits. -/
def ssnDetectAt (l : List Char) : Bool := ssnDetectChain 3 l || ssnDetectChain 2 l

/-- Search of the ssn detection pattern. -/
def ssnDetect (l : List Char) : Bool := l.tails.any ssnDetectAt

/-- Match at the current position of the ein detection pattern: two digits,
optional dash, seven digits. -/
def einDetectAt (l : List Char) : Bool :=
  (((takeDigits 2 l).map optDash).bind (takeDigits 7)).isSome

/-- Search of the ein detection pattern. -/
def einDetect (l : List Char) : Bool := l.tails.any einDetectAt

/-- Match at the current position of the dob detection pattern: one or two
digits, separator, one or two digits, separator, at least two digits. -/
def dobDetectAt (l : List Char) : Bool :=
  [2, 1].any (fun k1 => [2, 1].any (fun k2 =>
    ((((takeDigits k1 l).bind expectSep).bind (takeDigits k2)).bind expectSep
      |>.bind (takeDigits 2)).isSome))

/-- Search of the dob detection pattern. -/
def dobDetect (l : List Char) : Bool := l.tails.any dobDetectAt

/-- Unanchored domain part starting at the current position: one or more domain
characters, a dot, then at least two letters. -/
def emailDomainAt (l : List Char) : Bool :=
  (List.range l.length).any (fun m =>
    decide (0 < m) && (l.take m).all isEmailDomainChar && (l.get? m == some '.') &&
    (match l.drop (m + 1) with
     | a :: b :: _ => a.isAlpha && b.isAlpha
     | _ => false))

/-- Match at the current position of the email detection pattern. -/
def emailDetectAt (l : List Char) : Bool :=
  (List.range l.length).any (fun i =>
    decide (0 < i) && (l.take i).all isEmailLocalChar && (l.get? i == some '@') &&
    emailDomainAt (l.drop (i + 1)))

/-- Search of the email detection pattern. -/
def emailDetect (l : List Char) : Bool := l.tails.any emailDetectAt

/-- Character class of the address detection pattern: letters, digits,
whitespace, comma, dot. -/
def isAddressChar (c : Char) : Bool :=
  c.isAlphanum || isSpaceChar c || c = ',' || c = '.'

/-- Match at the current position of PHONE_DETECTION_PATTERNS entry 1:
paren, three digits, paren, any whitespace, three digits, dash, four digits. -/
def phonePat1At (l : List Char) : Bool :=
  ((expectChar '(' l).bind (takeDigits 3) |>.bind (expectChar ')')
    |>.map (fun r => r.dropWhile isSpaceChar) |>.bind (takeDigits 3)
    |>.bind (expectChar '-') |>.bind (takeDigits 4)).isSome

/-- Match at the current position of PHONE_DETECTION_PATTERNS entry 2:
three digits, dash, three digits, dash, four digits. -/
def phonePat2At (l : List Char) : Bool :=
  ((takeDigits 3 l).bind (expectChar '-') |>.bind (takeDigits 3)
    |>.bind (expectChar '-') |>.bind (takeDigits 4)).isSome

/-- Match at the current position of PHONE_DETECTION_PATTERNS entry 3:
three digits, dot, three digits, dot, four digits. -/
def phonePat3At (l : List Char) : Bool :=
  ((takeDigits 3 l).bind (expectChar '.') |>.bind (takeDigits 3)
    |>.bind (expectChar '.') |>.bind (takeDigits 4)).isSome

/-- Match at the current position of PHONE_DETECTION_PATTERNS entry 4: ten digits. -/
def phonePat4At (l : List Char) : Bool := (takeDigits 10 l).isSome

/-- Match at the current position of PHONE_DETECTION_PATTERNS entry 5:
three digits, one whitespace, three digits, one whitespace, four digits. -/
def phonePat5At (l : List Char) : Bool :=
  ((takeDigits 3 l).bind expectSpace |>.bind (takeDigits 3)
    |>.bind expectSpace |>.bind (takeDigits 4)).isSome

/-- Match at the current position of PHONE_DETECTION_PATTERNS entry 6:
paren, three digits, paren, one whitespace, three digits, one whitespace, four digits. -/
def phonePat6At (l : List Char) : Bool :=
  ((expectChar '(' l).bind (takeDigits 3) |>.bind (expectChar ')')
    |>.bind expectSpace |>.bind (takeDigits 3)
    |>.bind expectSpace |>.bind (takeDigits 4)).isSome

/-- Match at the current position of any of the six PHONE_DETECTION_PATTERNS. -/
def phonePatternsAt (l : List Char) : Bool :=
  phonePat1At l || phonePat2At l || phonePat3At l || phonePat4At l || phonePat5At l || phonePat6At l

/-- Search of the PHONE_DETECTION_PATTERNS, first match wins but only existence
is observed by the source. -/
def phonePatternsSearch (l : List Char) : Bool := l.tails.any phonePatternsAt

/-- The keys of FIELD_DETECTION_PATTERNS. -/
def FIELD_DETECTION_keys : List String :=
  ["email", "phone", "ssn", "ein", "dob", "name", "address"]

/-- Dispatch of the FIELD_DETECTION_PATTERNS searches by field type. -/
def detectionSearch (ft : String) (l : List Char) : Bool :=
  if ft = "email" then emailDetect l
  else if ft = "phone" then hasRun isPhoneChar 7 l
  else if ft = "ssn" then ssnDetect l
  else if ft = "ein" then einDetect l
  else if ft = "dob" then dobDetect l
  else if ft = "name" then hasRun Char.isAlpha 2 l
  else if ft = "address" then hasRun isAddressChar 10 l
  else false

/-- FIELD_MAP of the source: field types with their keyword synonym lists, in
dictionary (insertion) order. -/
def FIELD_MAP : List (String × List String) := [
  ("name", ["name", "names", "name(s)", "full name", "legal name", "business name", "company name"]),
  ("email", ["email", "email address", "e-mail", "e-mail address"]),
  ("address", ["address", "street address", "mailing address", "business address", "current address", "physical address"]),
  ("phone", ["phone", "telephone", "phone number", "telephone number", "mobile", "cell", "daytime phone"]),
  ("ein", ["ein", "employer identification number", "tax id", "tax identification number"]),
  ("dob", ["dob", "date of birth", "birthdate", "birth date"]),
  ("ssn", ["ssn", "social security", "social security number", "federal tax identification number"])]

/-- Substring containment, the Python in operator on strings. -/
def subList (needle hay : List Char) : Bool :=
  hay.tails.any (fun t => needle.isPrefixOf t)

/-- Substring containment of a keyword in a text, the Python in operator. -/
def containsStr (kw : String) (l : List Char) : Bool := subList kw.toList l

/-- Normalization of classify_field_type: lowercase, strip, remove every colon
and dot, strip again. -/
def normLabel (text : List Char) : List Char :=
  pyStrip ((pyStrip (text.map Char.toLower)).filter (fun c => !(c = ':' || c = '.')))

/-- Running state of the fuzzy fallback: best score so far and best field type. -/
abbrev FuzzState := ℚ × Option String

/-- Fuzzy fallback update of classify_field_type: keep the pair when the new
score is strictly greater. The similarity function of the external rapidfuzz
library is passed in as ratio. -/
def fuzzUpdate (ratio : List Char → List Char → ℚ) (clean : List Char) (ft : String)
    (kw : String) (st : FuzzState) : FuzzState :=
  let score := ratio clean kw.toList
  if st.1 < score then (score, some ft) else st

/-- One keyword step of classify_field_type: either an early return (left) or
the updated fuzzy state (right), mirroring the source control flow. -/
def classifyKw (ratio : List Char → List Char → ℚ) (clean : List Char) (ft : String)
    (kw : String) (st : FuzzState) : Sum (String × ℚ) FuzzState :=
  if clean = kw.toList then Sum.inl (ft, 100)
  else if subList kw.toList clean || subList clean kw.toList then
    if containsStr "email" clean && containsStr "address" clean then Sum.inl ("email", 95)
    else if ft == "email" && containsStr "email" clean then Sum.inl (ft, 95)
    else if ft == "address" && (containsStr "address" clean && !(containsStr "email" clean)) then Sum.inl (ft, 90)
    else if ft == "phone" && ["phone", "telephone", "mobile", "cell"].any (fun w => containsStr w clean) then Sum.inl (ft, 90)
    else if ft == "ssn" && ["ssn", "social security"].any (fun w => containsStr w clean) then Sum.inl (ft, 90)
    else if ft == "ein" && ["ein", "employer identification", "tax id"].any (fun w => containsStr w clean) then Sum.inl (ft, 90)
    else if ft == "dob" && ["dob", "date of birth", "birth"].any (fun w => containsStr w clean) then Sum.inl (ft, 90)
    else if ft == "name" && containsStr "name" clean then Sum.inl (ft, 85)
    else Sum.inr (fuzzUpdate ratio clean ft kw st)
  else Sum.inr (fuzzUpdate ratio clean ft kw st)

/-- Fold with early return, modelling a Python loop containing return statements. -/
def foldSC {α β σ : Type} (f : α → σ → Sum β σ) : List α → σ → Sum β σ
  | [], st => Sum.inr st
  | a :: t, st =>
    match f a st with
    | Sum.inl b => Sum.inl b
    | Sum.inr st2 => foldSC f t st2

/-- All keyword steps of one field type of classify_field_type. -/
def classifyField (ratio : List Char → List Char → ℚ) (clean : List Char)
    (p : String × List String) (st : FuzzState) : Sum (String × ℚ) FuzzState :=
  foldSC (fun kw st => classifyKw ratio clean p.1 kw st) p.2 st

/-- Model of classify_field_type, parameterized by the external fuzzy
similarity function. -/
def classify_field_type (ratio : List Char → List Char → ℚ) (text : List Char) :
    Option String × ℚ :=
  let clean := normLabel text
  match foldSC (classifyField ratio clean) FIELD_MAP (0, none) with
  | Sum.inl r => (some r.1, r.2)
  | Sum.inr st => (st.2, st.1)

/-- Axis-aligned rectangle with the fitz coordinate convention. -/
structure Rect where
  x0 : ℚ
  y0 : ℚ
  x1 : ℚ
  y1 : ℚ
deriving DecidableEq

/-- A page is modelled through the only operation the source performs on it:
clipped text extraction, page.get_text with a clip rectangle. -/
abbrev Page := Rect → List Char

/-- Model of is_field_already_filled on a page region. -/
def is_field_already_filled (page : Page) (ft : String) (bbox : Rect) : Bool :=
  if !(FIELD_DETECTION_keys.contains ft) then false
  else
    let text := pyStrip (page bbox)
    if text.isEmpty then false
    else if ft == "phone" && decide ((stripPhonePunct text).length < 5) && isPlaceholderPhone text then false
    else if ft == "phone" && (phonePatternsSearch text || decide (7 ≤ (digitsOf text).length)) then true
    else if detectionSearch ft text then true
    else if ft == "email" && text.contains '@' then true
    else false

/-- Model of is_acroform_field_already_filled on a structured field value. -/
def is_acroform_field_already_filled (ft : String) (current : List Char) : Bool :=
  if (pyStrip current).isEmpty then false
  else
    let v := pyStrip current
    if !(FIELD_DETECTION_keys.contains ft) then false
    else if ft == "phone" && (phonePatternsSearch v || decide (7 ≤ (digitsOf v).length)) then true
    else if detectionSearch ft v then true
    else if ft == "email" && v.contains '@' then true
    else false

/-- Model of check_phone_after_label: probe the area right of a phone label for
an existing phone number. -/
def check_phone_after_label (page : Page) (lb : Rect) (pageWidth : ℚ) : Bool :=
  let r : Rect := ⟨lb.x1 + 5, lb.y0 - 10, min (lb.x1 + 200) pageWidth, lb.y1 + 10⟩
  let text := pyStrip (page r)
  if text.isEmpty then false
  else if decide ((stripPhonePunct text).length < 5) && isPlaceholderPhone text then false
  else if phonePatternsSearch text then true
  else if decide (7 ≤ (digitsOf text).length) then true
  else false

/-- The ordered candidate search windows of detect_blank_space_after_label. -/
def searchPositions (ft : String) (x1 : ℚ) : List (ℚ × ℚ) :=
  if ft == "phone" then
    [(x1 + 5, 80), (x1 + 10, 100), (x1 + 15, 120), (x1 + 20, 150), (x1 + 30, 200)]
  else
    [(x1 + 50, 50), (x1 + 100, 100), (x1 + 150, 150), (x1 + 200, 200), (x1 + 250, 250)]

/-- Blankness test of one search window of detect_blank_space_after_label. -/
def blankAt (page : Page) (lb : Rect) (pageWidth : ℚ) (ft : String) (pos : ℚ × ℚ) : Bool :=
  let r : Rect := ⟨pos.1, lb.y0 - 8, min (pos.1 + pos.2) pageWidth, lb.y1 + 8⟩
  let text := pyStrip (page r)
  if ft == "phone" then decide ((stripPhonePunct text).length < 5) || isPlaceholderPhone text
  else decide (text.length < 10)

/-- Placement rectangle derived from a blank search window. -/
def placementFor (lb : Rect) (pos : ℚ × ℚ) : Rect :=
  let px := pos.1 + 5
  let fh := max (lb.y1 - lb.y0) 12
  let py := lb.y0 - 2
  ⟨px, py, px + (pos.2 - 10), py + fh + 4⟩

/-- Model of detect_blank_space_after_label: the placement rectangle of the
first blank window, if any. -/
def detect_blank_space_after_label (page : Page) (lb : Rect) (pageWidth : ℚ) (ft : String) :
    Option Rect :=
  ((searchPositions ft lb.x1).find? (blankAt page lb pageWidth ft)).map (placementFor lb)

/-- A word token of page.get_text with the words option; trailing tuple fields
that the source ignores are omitted. -/
structure Word where
  x0 : ℚ
  y0 : ℚ
  x1 : ℚ
  y1 : ℚ
  text : List Char
deriving DecidableEq

/-- The field keyword list of is_likely_field_label. -/
def labelKeywords : List String :=
  ["name", "email", "address", "phone", "telephone", "dob", "birth", "ssn", "ein", "fein", "daytime"]

/-- Model of is_likely_field_label. -/
def is_likely_field_label (w : Word) (pageWidth pageHeight : ℚ) : Bool :=
  let lower := pyStrip (w.text.map Char.toLower)
  let hasInd := [':', '.', '?'].any (fun c => lower.getLast? == some c)
  let hasKw := labelKeywords.any (fun k => containsStr k lower)
  let topLeft := decide (w.y0 < pageHeight * (3 / 10))
  let short := decide ((pyStrip w.text).length < 50)
  let isolated := decide (w.x1 - w.x0 < pageWidth * (3 / 10))
  let conf : ℚ := (if hasInd then 30 else 0) + (if hasKw then 40 else 0) +
    (if topLeft then 15 else 0) + (if short then 20 else 0) + (if isolated then 20 else 0)
  decide (70 ≤ conf)

/-- One page of an open fitz document: clipped text extraction, page size and
the word tokens the scan iterates over. -/
structure PageData where
  content : Page
  width : ℚ
  height : ℚ
  words : List Word

/-- A recorded label candidate of search_labels_positions_enhanced. -/
structure Cand where
  page : Nat
  labelBbox : Rect
  placementBbox : Rect
  text : List Char
  conf : ℚ
  ft : String
deriving DecidableEq

/-- Bounding rectangle of a word token. -/
def wordRect (w : Word) : Rect := ⟨w.x0, w.y0, w.x1, w.y1⟩

/-- Python values.get followed by the truthiness test of the retrieved string. -/
def lookupValue (values : List (String × List Char)) (ft : String) : Option (List Char) :=
  match List.lookup ft values with
  | some v => if v.isEmpty then none else some v
  | none => none

/-- Decision of search_labels_positions_enhanced for one word token: the
candidate it records, if any. -/
def scanWord (ratio : List Char → List Char → ℚ) (values : List (String × List Char))
    (pd : PageData) (p : Nat) (w : Word) : Option Cand :=
  if !(is_likely_field_label w pd.width pd.height) then none
  else
    match classify_field_type ratio w.text with
    | (some ft, conf) =>
      if decide (80 ≤ conf) then
        match lookupValue values ft with
        | some _ =>
          if ft == "phone" && check_phone_after_label pd.content (wordRect w) pd.width then none
          else
            match detect_blank_space_after_label pd.content (wordRect w) pd.width ft with
            | some pb =>
              if is_field_already_filled pd.content ft pb then none
              else some ⟨p, wordRect w, pb, w.text, conf, ft⟩
            | none => none
        | none => none
      else none
    | (none, _) => none

/-- All recorded candidates of a document, in page and word scan order. -/
def scanCands (ratio : List Char → List Char → ℚ) (doc : List PageData)
    (values : List (String × List Char)) : List Cand :=
  (doc.enum.map (fun pp => pp.2.words.filterMap (scanWord ratio values pp.2 pp.1))).flatten

/-- Model of search_labels_positions_enhanced: the hits dictionary, keyed in
FIELD_MAP order, holding each type's recorded candidates in scan order. -/
def search_labels_positions_enhanced (ratio : List Char → List Char → ℚ)
    (doc : List PageData) (values : List (String × List Char)) :
    List (String × List Cand) :=
  FIELD_MAP.map (fun p => (p.1, (scanCands ratio doc values).filter (fun c => c.ft == p.1)))

/-- One mapping.yaml field entry: structured write offsets and font size, each
optional as in the source dictionary lookups. -/
structure MapEntry where
  key : String
  dx : Option ℚ
  dy : Option ℚ
  fontSize : Option ℚ
deriving DecidableEq

/-- Offsets and font size chosen by overlay_values_enhanced for a field type. -/
def writeParams (mapping : List MapEntry) (ft : String) : ℚ × ℚ × ℚ :=
  match mapping.find? (fun e => e.key == ft) with
  | some e => (e.dx.getD (if ft == "phone" then 5 else 50), e.dy.getD 0, e.fontSize.getD 10)
  | none => (if ft == "phone" then (5 : ℚ) else 50, 0, 10)

/-- Model of verify_text_placement: the estimated text rectangle holds no
existing rendered text. -/
def verify_text_placement (page : Page) (x y : ℚ) (text : List Char) (fontsize : ℚ) : Bool :=
  let charWidth := fontsize * (6 / 10)
  let textWidth := (text.length : ℚ) * charWidth
  let r : Rect := ⟨x, y - fontsize, x + textWidth, y + 2⟩
  (pyStrip (page r)).isEmpty

/-- The probe loop of find_safe_text_position: at each attempt the offset is
start plus attempt times step; the first safe offset is returned. -/
def findSafeGo (page : Page) (baseX baseY : ℚ) (text : List Char) (fontsize : ℚ)
    (start step : ℚ) : Nat → Nat → Option ℚ
  | _, 0 => none
  | attempt, rem + 1 =>
    let off := start + (attempt : ℚ) * step
    if verify_text_placement page (baseX + off) baseY text fontsize then some off
    else findSafeGo page baseX baseY text fontsize start step (attempt + 1) rem

/-- Model of find_safe_text_position with the default attempt budget of ten:
small steps for phone, larger steps otherwise, far-right fallback. -/
def find_safe_text_position (page : Page) (baseX baseY : ℚ) (text : List Char)
    (fontsize : ℚ) (ft : String) : ℚ × ℚ :=
  let res := if ft == "phone" then findSafeGo page baseX baseY text fontsize 5 5 0 10
             else findSafeGo page baseX baseY text fontsize 50 20 0 10
  match res with
  | some off => (baseX + off, baseY)
  | none => (baseX + 300, baseY)

/-- One text stamp emitted by overlay_values_enhanced: the page.insert_text
call, together with the candidate that produced it. -/
structure Stamp where
  ft : String
  cand : Cand
  pos : ℚ × ℚ
  text : List Char
deriving DecidableEq

/-- Model of the Python max with a key function: the first candidate of
maximal confidence, seeded with the first element. -/
def pyMaxGo (t : List Cand) (b : Cand) : Cand :=
  match t with
  | [] => b
  | c :: t => pyMaxGo t (if b.conf < c.conf then c else b)

/-- Python max over a candidate list, none when the list is empty. -/
def pyMaxConf (l : List Cand) : Option Cand :=
  match l with
  | [] => none
  | c :: t => some (pyMaxGo t c)

/-- Page access of overlay_values_enhanced, doc indexed by the candidate's page
number; the empty page stands for an index outside the document, which the
source never produces. -/
def pageAt (doc : List PageData) (n : Nat) : Page :=
  match doc.get? n with
  | some pd => pd.content
  | none => fun _ => []

/-- Decision of overlay_values_enhanced for one hits entry: the stamp it
writes, if any. -/
def overlayStamp (doc : List PageData) (values : List (String × List Char))
    (mapping : List MapEntry) (entry : String × List Cand) : Option Stamp :=
  if entry.2.isEmpty then none
  else
    match lookupValue values entry.1 with
    | none => none
    | some v =>
      match pyMaxConf entry.2 with
      | none => none
      | some best =>
        let page := pageAt doc best.page
        if is_field_already_filled page entry.1 best.placementBbox then none
        else
          let prm := writeParams mapping entry.1
          let x := best.placementBbox.x0 + prm.1
          let fh := best.placementBbox.y1 - best.placementBbox.y0
          let y := best.placementBbox.y0 + fh * (6 / 10) + prm.2.1
          let fv := format_field_value entry.1 v
          some ⟨entry.1, best, find_safe_text_position page x y fv prm.2.2 entry.1, fv⟩

/-- Model of overlay_values_enhanced: the list of stamps written, in hits
order. The effect of page.insert_text on later text extraction is library
behavior outside the model; every property proved below holds for arbitrary
extraction results. The function reports success when the list is non-empty. -/
def overlay_values_enhanced (doc : List PageData) (anchors : List (String × List Cand))
    (values : List (String × List Char)) (mapping : List MapEntry) : List Stamp :=
  anchors.filterMap (overlayStamp doc values mapping)

/-- A structured form field with its current value, the slash-V entry. -/
structure AcroField where
  name : String
  value : List Char
deriving DecidableEq

/-- One page of the pypdf writer: its form field widgets and whether the page
still carries its annotations entry. -/
structure AcroPage where
  fields : List AcroField
  hasAnnots : Bool
deriving DecidableEq

/-- Model of writer.get_fields: every field of the document. -/
def getFieldsOf (doc : List AcroPage) : List AcroField := (doc.map AcroPage.fields).flatten

/-- Dictionary store: replace the value of an existing key or append a new one. -/
def assocSet {α : Type} : List (String × α) → String → α → List (String × α)
  | [], n, v => [(n, v)]
  | (k, w) :: t, n, v => if k = n then (k, v) :: t else (k, w) :: assocSet t n v

/-- Staging decision of fill_acroform for one structured field under one
logical key: skip fields whose current value is non-empty and already valid. -/
def stageField (lk : String) (v : List Char) (als : List String)
    (um : List (String × List Char)) (f : AcroField) : List (String × List Char) :=
  if als.contains f.name then
    if !(f.value.isEmpty) && is_acroform_field_already_filled lk f.value then um
    else assocSet um f.name v
  else um

/-- The update map built by fill_acroform before writing. -/
def buildUpdateMap (fields : List AcroField) (values : List (String × List Char))
    (fieldAliases : List (String × List String)) : List (String × List Char) :=
  fieldAliases.foldl (fun um p =>
    match List.lookup p.1 values with
    | none => um
    | some v => if v.isEmpty then um else fields.foldl (stageField p.1 v p.2) um) []

/-- Application of the update map to one field, the effect of
update_page_form_field_values on a widget of the chosen page. -/
def applyUpdates (um : List (String × List Char)) (f : AcroField) : AcroField :=
  match List.lookup f.name um with
  | some v => ⟨f.name, v⟩
  | none => f

/-- Model of fill_acroform: stage updates, and when at least one field is
staged apply them through update_page_form_field_values on the first page
only, then delete the annotations entry of every page. The source would raise
on an empty document when indexing the first page; the model is only applied
to non-empty documents. -/
def fill_acroform (doc : List AcroPage) (values : List (String × List Char))
    (fieldAliases : List (String × List String)) : Bool × List AcroPage :=
  let um := buildUpdateMap (getFieldsOf doc) values fieldAliases
  if um.isEmpty then (false, doc)
  else
    match doc with
    | [] => (true, [])
    | p0 :: rest =>
      (true, (⟨p0.fields.map (applyUpdates um), false⟩ : AcroPage) ::
        rest.map (fun p => (⟨p.fields, false⟩ : AcroPage)))

/-- Lowercased dot-pdf suffix test of process_zip. -/
def lowerEndsWithPdf (name : String) : Bool :=
  ".pdf".toList.isSuffixOf (name.toList.map Char.toLower)

/-- The final path component, Path name dot name in the source. -/
def baseName (name : String) : String :=
  String.mk ((name.toList.reverse.takeWhile (fun c => !(c = '/'))).reverse)

/-- State of the extraction directory after the extraction loop: each PDF entry
is written to its base name, later entries overwriting earlier ones, so the
remainder of the entry list is consulted first. -/
def extractFiles {α : Type} : List (String × α) → String → Option α
  | [], _ => none
  | e :: t, n =>
    match extractFiles t n with
    | some c => some c
    | none => if lowerEndsWithPdf e.1 && n == baseName e.1 then some e.2 else none

/-- The pdfs list accumulated by the extraction loop, base names in entry order. -/
def extractPdfList {α : Type} (entries : List (String × α)) : List String :=
  entries.filterMap (fun e => if lowerEndsWithPdf e.1 then some (baseName e.1) else none)

/-- The processing loop of process_zip: fill each extracted document, write
filled underscore name on success and original underscore name otherwise into
the output directory. -/
def processLoop {α : Type} (fill : α → Bool × α) (fs : String → Option α) :
    List String → List (String × α) → List (String × α)
  | [], outd => outd
  | b :: rest, outd =>
    match fs b with
    | none => processLoop fill fs rest outd
    | some c =>
      let r := fill c
      if r.1 then processLoop fill fs rest (assocSet outd ("filled_" ++ b) r.2)
      else processLoop fill fs rest (assocSet outd ("original_" ++ b) c)

/-- Model of process_zip, parameterized by the per-document fill function: the
entries of the output archive. -/
def process_zip {α : Type} (fill : α → Bool × α) (entries : List (String × α)) :
    List (String × α) :=
  processLoop fill (extractFiles entries) (extractPdfList entries) []

/-- The processing loop as it behaves when the fill of a document can raise:
the source has no handler around the loop body, so an exception propagates and
ends the whole batch. -/
def processLoopE {α : Type} (fill : α → Except Unit (Bool × α)) (fs : String → Option α) :
    List String → List (String × α) → Except Unit (List (String × α))
  | [], outd => Except.ok outd
  | b :: rest, outd =>
    match fs b with
    | none => processLoopE fill fs rest outd
    | some c =>
      match fill c with
      | Except.error e => Except.error e
      | Except.ok r =>
        if r.1 then processLoopE fill fs rest (assocSet outd ("filled_" ++ b) r.2)
        else processLoopE fill fs rest (assocSet outd ("original_" ++ b) c)

/-- Model of process_zip with a fill function that can raise. -/
def process_zipE {α : Type} (fill : α → Except Unit (Bool × α)) (entries : List (String × α)) :
    Except Unit (List (String × α)) :=
  processLoopE fill (extractFiles entries) (extractPdfList entries) []

section Theorems

/-- The singleton take of a list equals a singleton exactly when the head does. -/
lemma take_one_eq_singleton (l : List Char) (c : Char) :
    l.take 1 = [c] ↔ l.get? 0 = some c := by
  cases l with
  | nil => simp
  | cons a t => simp [List.take]

/-- C8: the Value Formatter canonicalizes phone, ssn, ein and address values as
the claim states and passes every other field type through unchanged; in
particular ein 123456789 renders as 12-3456789. -/
theorem C8_formatter (v : List Char) :
    (format_field_value "phone" v =
      (if (digitsOf v).length = 10 then usPhoneRender (digitsOf v)
       else if (digitsOf v).length = 11 ∧ (digitsOf v).take 1 = ['1'] then
         usPhoneRender ((digitsOf v).drop 1)
       else v)) ∧
    (format_field_value "ssn" v =
      (if (digitsOf v).length = 9 then
        (digitsOf v).take 3 ++ '-' :: ((digitsOf v).drop 3).take 2 ++ '-' :: (digitsOf v).drop 5
       else v)) ∧
    (format_field_value "ein" v =
      (if (digitsOf v).length = 9 then (digitsOf v).take 2 ++ '-' :: (digitsOf v).drop 2 else v)) ∧
    format_field_value "address" v = pyStrip v ∧
    format_field_value "name" v = v ∧
    format_field_value "email" v = v ∧
    format_field_value "dob" v = v ∧
    format_field_value "ein" "123456789".toList = "12-3456789".toList ∧
    format_field_value "phone" "5551234567".toList = "(555) 123-4567".toList ∧
    format_field_value "ssn" "123456789".toList = "123-45-6789".toList := by
  refine ⟨?_, by simp [format_field_value], by simp [format_field_value],
    by simp [format_field_value], by simp [format_field_value], by simp [format_field_value],
    by simp [format_field_value], by decide, by decide, by decide⟩
  have h1 : ((digitsOf v).length = 11 ∧ (digitsOf v).get? 0 = some '1') ↔
      ((digitsOf v).length = 11 ∧ (digitsOf v).take 1 = ['1']) :=
    and_congr_right (fun _ => (take_one_eq_singleton _ _).symm)
  have hdef : format_field_value "phone" v =
      (if (digitsOf v).length = 10 then usPhoneRender (digitsOf v)
       else if (digitsOf v).length = 11 ∧ (digitsOf v).get? 0 = some '1' then
         usPhoneRender ((digitsOf v).drop 1)
       else v) := rfl
  rw [hdef]
  exact if_congr Iff.rfl rfl (if_congr h1 rfl rfl)

/-- C3: the Value Validator keeps exactly the entries that are non-empty after
trimming and match their field type validation pattern when one exists, storing
the trimmed value; phone 555-123-4567 is accepted and phone abc is rejected. -/
theorem C3_validator :
    (∀ (values : List (String × List Char)) (k : String) (v : List Char),
      (k, v) ∈ validate_input_values values ↔
        ∃ raw, (k, raw) ∈ values ∧ v = pyStrip raw ∧ pyStrip raw ≠ [] ∧
          (FIELD_VALIDATION_keys.contains k = true → validationMatch k (pyStrip raw) = true)) ∧
    validate_input_values [("phone", "555-123-4567".toList)] =
      [("phone", "555-123-4567".toList)] ∧
    validate_input_values [("phone", "abc".toList)] = [] := by
  refine ⟨?_, by decide, by decide⟩
  intro values k v
  unfold validate_input_values
  rw [List.mem_filterMap]
  constructor
  · rintro ⟨⟨k2, raw⟩, hmem, heq⟩
    dsimp only at heq
    split at heq
    · exact absurd heq (by simp)
    · split at heq
      · split at heq
        · rename_i hne hkey hval
          rw [Option.some.injEq, Prod.mk.injEq] at heq
          obtain ⟨hk2, hv⟩ := heq
          subst hk2
          refine ⟨raw, hmem, hv.symm, ?_, fun _ => hval⟩
          simpa [List.isEmpty_iff] using hne
        · exact absurd heq (by simp)
      · rename_i hne hkey
        rw [Option.some.injEq, Prod.mk.injEq] at heq
        obtain ⟨hk2, hv⟩ := heq
        subst hk2
        refine ⟨raw, hmem, hv.symm, ?_, fun hk => ?_⟩
        · simpa [List.isEmpty_iff] using hne
        · exact absurd hk (by simpa using hkey)
  · rintro ⟨raw, hmem, rfl, hne, hval⟩
    refine ⟨(k, raw), hmem, ?_⟩
    dsimp only
    rw [if_neg (by simpa [List.isEmpty_iff] using hne)]
    by_cases hk : FIELD_VALIDATION_keys.contains k = true
    · rw [if_pos hk, if_pos (hval hk)]
    · rw [if_neg hk]

/-- Inequality of the normalized label and a keyword follows from a substring
present in one and absent in the other. -/
lemma ne_of_contains_not_contains {clean : List Char} {kw : String} (needle : String)
    (h1 : containsStr needle clean = true) (h2 : containsStr needle kw.toList = false) :
    clean ≠ kw.toList := by
  intro he
  rw [he, h2] at h1
  exact Bool.false_ne_true h1

/-- A keyword step under the email and address hypotheses either returns email
with confidence 95 or only updates the fuzzy state. -/
lemma classifyKw_of_both (ratio : List Char → List Char → ℚ) {clean : List Char}
    (ft : String) (kw : String) (st : FuzzState)
    (h1 : containsStr "email" clean = true) (h2 : containsStr "address" clean = true)
    (hne : clean ≠ kw.toList) :
    classifyKw ratio clean ft kw st = Sum.inl ("email", 95) ∨
    classifyKw ratio clean ft kw st = Sum.inr (fuzzUpdate ratio clean ft kw st) := by
  unfold classifyKw
  rw [if_neg hne]
  by_cases hc : (subList kw.toList clean || subList clean kw.toList) = true
  · rw [if_pos hc, if_pos (by rw [Bool.and_eq_true]; exact ⟨h1, h2⟩)]
    exact Or.inl rfl
  · rw [if_neg hc]
    exact Or.inr rfl

/-- Processing a keyword list none of whose members can equal the normalized
label either returns email with confidence 95 or ends in some fuzzy state. -/
lemma foldSC_kws_of_both (ratio : List Char → List Char → ℚ) (clean : List Char)
    (ft : String) (kws : List String)
    (h1 : containsStr "email" clean = true) (h2 : containsStr "address" clean = true)
    (hkw : ∀ kw ∈ kws, containsStr "email" kw.toList = false) :
    ∀ st, foldSC (fun kw st => classifyKw ratio clean ft kw st) kws st = Sum.inl ("email", 95) ∨
      ∃ st2, foldSC (fun kw st => classifyKw ratio clean ft kw st) kws st = Sum.inr st2 := by
  induction kws with
  | nil => exact fun st => Or.inr ⟨st, rfl⟩
  | cons kw t ih =>
    intro st
    have hne : clean ≠ kw.toList :=
      ne_of_contains_not_contains "email" h1 (hkw kw (by simp))
    have hstep := classifyKw_of_both ratio ft kw st h1 h2 hne
    simp only [foldSC]
    rcases hstep with h | h
    · rw [h]
      exact Or.inl rfl
    · rw [h]
      exact ih (fun k hk => hkw k (List.mem_cons_of_mem _ hk)) (fuzzUpdate ratio clean ft kw st)

/-- The email entry of FIELD_MAP returns email with confidence 95 from any
fuzzy state when the normalized label contains both keywords. -/
lemma classifyField_email_step {ratio : List Char → List Char → ℚ} {clean : List Char}
    (st : FuzzState)
    (h1 : containsStr "email" clean = true) (h2 : containsStr "address" clean = true) :
    classifyField ratio clean ("email", ["email", "email address", "e-mail", "e-mail address"]) st =
      Sum.inl ("email", 95) := by
  have hne : clean ≠ "email".toList :=
    ne_of_contains_not_contains "address" h2 (by decide)
  have hsub : (subList "email".toList clean || subList clean "email".toList) = true := by
    rw [Bool.or_eq_true]
    exact Or.inl h1
  have hstep : classifyKw ratio clean "email" "email" st = Sum.inl ("email", 95) := by
    unfold classifyKw
    rw [if_neg hne, if_pos hsub, if_pos (by rw [Bool.and_eq_true]; exact ⟨h1, h2⟩)]
  unfold classifyField
  simp only [foldSC]
  rw [hstep]

/-- C4: a label whose normalized text contains both the email and the address
keyword always classifies as email with confidence 95, for every fuzzy
similarity function and whichever keyword comes first. -/
theorem C4_classifier (ratio : List Char → List Char → ℚ) (text : List Char)
    (h1 : containsStr "email" (normLabel text) = true)
    (h2 : containsStr "address" (normLabel text) = true) :
    classify_field_type ratio text = (some "email", 95) := by
  have hname := foldSC_kws_of_both ratio (normLabel text) "name"
    ["name", "names", "name(s)", "full name", "legal name", "business name", "company name"]
    h1 h2 (by decide)
  have hfold : foldSC (classifyField ratio (normLabel text)) FIELD_MAP (0, none) =
      Sum.inl ("email", 95) := by
    simp only [FIELD_MAP, foldSC]
    have hfname : classifyField ratio (normLabel text)
        ("name", ["name", "names", "name(s)", "full name", "legal name", "business name", "company name"]) =
        foldSC (fun kw st => classifyKw ratio (normLabel text) "name" kw st)
          ["name", "names", "name(s)", "full name", "legal name", "business name", "company name"] := rfl
    rcases hname (0, none) with h | ⟨st2, h⟩
    · rw [hfname, h]
    · rw [hfname, h]
      dsimp only
      rw [classifyField_email_step st2 h1 h2]
  simp only [classify_field_type]
  rw [hfold]

/-- C4 witness: the classifier at a concrete label containing both keywords. -/
theorem C4_classifier_witness :
    classify_field_type (fun _ _ => 0) "Email Address:".toList = (some "email", 95) :=
  C4_classifier (fun _ _ => 0) "Email Address:".toList (by decide) (by decide)

/-- The ten offsets probed by find_safe_text_position for a field type, derived
from the loop bounds of the source. -/
def probeOffsets (ft : String) : List ℚ :=
  (List.range 10).map (fun a : Nat =>
    (if ft == "phone" then (5 : ℚ) else 50) + (a : ℚ) * (if ft == "phone" then (5 : ℚ) else 20))

/-- The probe loop equals a first-match search over the list of probed offsets. -/
lemma findSafeGo_spec (page : Page) (baseX baseY : ℚ) (text : List Char) (fontsize : ℚ)
    (start step : ℚ) :
    ∀ (fuel attempt : Nat),
      findSafeGo page baseX baseY text fontsize start step attempt fuel =
        ((List.range fuel).map (fun a : Nat => start + ((attempt + a : Nat) : ℚ) * step)).find?
          (fun off => verify_text_placement page (baseX + off) baseY text fontsize) := by
  intro fuel
  induction fuel with
  | zero => intro attempt; rfl
  | succ n ih =>
    intro attempt
    simp only [findSafeGo]
    rw [ih (attempt + 1), List.range_succ_eq_map, List.map_cons, List.map_map, List.find?_cons]
    have hc : ((List.range n).map ((fun a : Nat => start + ((attempt + a : Nat) : ℚ) * step) ∘ Nat.succ)) =
        ((List.range n).map (fun a : Nat => start + ((attempt + 1 + a : Nat) : ℚ) * step)) := by
      apply List.map_congr_left
      intro a _
      have h2 : attempt + a.succ = attempt + 1 + a := by omega
      simp [Function.comp, h2]
    rw [hc]
    simp only [Nat.add_zero]
    cases hv : verify_text_placement page (baseX + (start + (attempt : ℚ) * step)) baseY text fontsize <;>
      simp [hv]

/-- C5 amended: the Safe-Placement Resolver probes exactly ten strictly
increasing rightward offsets, small steps for phone and larger steps otherwise,
returns the first probed position whose estimated text rectangle holds no
existing text, and when no probed offset is safe falls back to the far-right
offset of three hundred points without re-checking it for overlap. -/
theorem C5_resolver_amended (page : Page) (baseX baseY : ℚ) (text : List Char)
    (fontsize : ℚ) (ft : String) :
    (probeOffsets ft).length = 10 ∧
    (probeOffsets ft).Pairwise (fun a b => a < b) ∧
    find_safe_text_position page baseX baseY text fontsize ft =
      (match (probeOffsets ft).find?
          (fun off => verify_text_placement page (baseX + off) baseY text fontsize) with
       | some off => (baseX + off, baseY)
       | none => (baseX + 300, baseY)) := by
  have hstep : (0 : ℚ) < (if ft == "phone" then (5 : ℚ) else 20) := by
    split <;> norm_num
  refine ⟨by rw [probeOffsets, List.length_map, List.length_range], ?_, ?_⟩
  · rw [probeOffsets, List.pairwise_map]
    refine List.Pairwise.imp ?_ (List.pairwise_lt_range 10)
    intro a b hab
    have hcast : (a : ℚ) < (b : ℚ) := by exact_mod_cast hab
    exact add_lt_add_left (mul_lt_mul_of_pos_right hcast hstep) _
  · unfold find_safe_text_position
    by_cases hft : (ft == "phone") = true
    · have hoffs : probeOffsets ft = (List.range 10).map (fun a : Nat => (5 : ℚ) + (a : ℚ) * 5) := by
        simp [probeOffsets, hft]
      rw [if_pos hft, findSafeGo_spec page baseX baseY text fontsize 5 5 10 0, hoffs]
      simp only [Nat.zero_add]
    · have hoffs : probeOffsets ft = (List.range 10).map (fun a : Nat => (50 : ℚ) + (a : ℚ) * 20) := by
        simp [probeOffsets, hft]
      rw [if_neg hft, findSafeGo_spec page baseX baseY text fontsize 50 20 10 0, hoffs]
      simp only [Nat.zero_add]

/-- C5 counterexample: on a page whose text extraction is everywhere non-empty
every probe fails and the resolver returns the far-right fallback, which itself
fails the overlap check, contradicting the claim that the returned default is
non-overlapping. -/
theorem C5_counterexample :
    find_safe_text_position (fun _ => ['x']) 0 0 ['a'] 10 "name" = (300, 0) ∧
    verify_text_placement (fun _ => ['x']) 300 0 ['a'] 10 = false := by
  have hv : ∀ x y : ℚ, verify_text_placement (fun _ => ['x']) x y ['a'] 10 = false :=
    fun x y => rfl
  constructor
  · unfold find_safe_text_position
    rw [if_neg (by decide), findSafeGo_spec]
    rw [List.find?_eq_none.mpr (fun x _ => by simp [hv])]
    norm_num
  · exact hv 300 0

/-- C2: a per-document fill that raises on the second document makes the whole
batch return the error, producing no output archive even for the documents
around it, while the same batch without the failing document succeeds; the
source has no handler at the per-document boundary. -/
theorem C2_batch_abort :
    process_zipE (fun c : Nat => if c = 1 then Except.error () else Except.ok (false, c))
      [("good1.pdf", 0), ("corrupt.pdf", 1), ("good2.pdf", 2)] = Except.error () ∧
    process_zipE (fun c : Nat => if c = 1 then Except.error () else Except.ok (false, c))
      [("good1.pdf", 0), ("good2.pdf", 2)] =
      Except.ok [("original_good1.pdf", 0), ("original_good2.pdf", 2)] := by
  constructor
  · rfl
  · rfl

/-- Keeping only the PDF entries does not change the pdfs list of the
extraction loop. -/
lemma extractPdfList_filter {α : Type} (entries : List (String × α)) :
    extractPdfList (entries.filter (fun e => lowerEndsWithPdf e.1)) = extractPdfList entries := by
  induction entries with
  | nil => rfl
  | cons e t ih =>
    simp only [extractPdfList] at ih ⊢
    cases h : lowerEndsWithPdf e.1 with
    | true => simp [List.filter_cons, List.filterMap_cons, h, ih]
    | false => simp [List.filter_cons, List.filterMap_cons, h, ih]

/-- Keeping only the PDF entries does not change the extracted files either. -/
lemma extractFiles_filter {α : Type} (entries : List (String × α)) (n : String) :
    extractFiles (entries.filter (fun e => lowerEndsWithPdf e.1)) n = extractFiles entries n := by
  induction entries with
  | nil => rfl
  | cons e t ih =>
    cases h : lowerEndsWithPdf e.1 with
    | true =>
      have hf : (e :: t).filter (fun e => lowerEndsWithPdf e.1) =
          e :: t.filter (fun e => lowerEndsWithPdf e.1) := by
        simp [List.filter_cons, h]
      rw [hf]
      simp only [extractFiles]
      rw [ih]
    | false =>
      have hf : (e :: t).filter (fun e => lowerEndsWithPdf e.1) =
          t.filter (fun e => lowerEndsWithPdf e.1) := by
        simp [List.filter_cons, h]
      rw [hf, ih]
      simp only [extractFiles]
      rw [h]
      cases hx : extractFiles t n <;> simp

/-- Dropping the non-PDF entries yields an empty pdfs list. -/
lemma extractPdfList_nonpdf {α : Type} (entries : List (String × α)) :
    extractPdfList (entries.filter (fun e => !(lowerEndsWithPdf e.1))) = [] := by
  induction entries with
  | nil => rfl
  | cons e t ih =>
    simp only [extractPdfList] at ih ⊢
    cases h : lowerEndsWithPdf e.1 with
    | true => simp [List.filter_cons, List.filterMap_cons, h, ih]
    | false => simp [List.filter_cons, List.filterMap_cons, h, ih]

/-- C10: the batch processor only extracts and processes the entries whose name
ends in dot-pdf case-insensitively, so removing the non-PDF entries leaves the
output unchanged, and an archive of only non-PDF entries produces an empty
output with nothing copied through. -/
theorem C10_nonpdf_dropped {α : Type} (fill : α → Bool × α) (entries : List (String × α)) :
    process_zip fill (entries.filter (fun e => lowerEndsWithPdf e.1)) = process_zip fill entries ∧
    process_zip fill (entries.filter (fun e => !(lowerEndsWithPdf e.1))) = [] := by
  constructor
  · unfold process_zip
    rw [extractPdfList_filter, funext (extractFiles_filter entries)]
  · unfold process_zip
    rw [extractPdfList_nonpdf]
    rfl

/-- A key present after a dictionary store was present before or is the stored key. -/
lemma mem_map_fst_assocSet {α : Type} {l : List (String × α)} {k n : String} {v : α} :
    n ∈ (assocSet l k v).map Prod.fst → n ∈ l.map Prod.fst ∨ n = k := by
  induction l with
  | nil =>
    intro h
    simp only [assocSet, List.map_cons, List.map_nil, List.mem_singleton] at h
    exact Or.inr h
  | cons e t ih =>
    obtain ⟨f, s⟩ := e
    simp only [assocSet]
    by_cases hk : f = k
    · rw [if_pos hk]
      intro h
      rw [List.map_cons, List.mem_cons] at h
      rcases h with h | h
      · exact Or.inl (by rw [List.map_cons, List.mem_cons]; exact Or.inl h)
      · exact Or.inl (by rw [List.map_cons, List.mem_cons]; exact Or.inr h)
    · rw [if_neg hk]
      intro h
      rw [List.map_cons, List.mem_cons] at h
      rcases h with h | h
      · exact Or.inl (by rw [List.map_cons, List.mem_cons]; exact Or.inl h)
      · rcases ih h with h2 | h2
        · exact Or.inl (by rw [List.map_cons, List.mem_cons]; exact Or.inr h2)
        · exact Or.inr h2

/-- A dictionary store keeps the keys without duplicates. -/
lemma nodup_assocSet {α : Type} {l : List (String × α)} (k : String) (v : α)
    (h : (l.map Prod.fst).Nodup) : ((assocSet l k v).map Prod.fst).Nodup := by
  induction l with
  | nil => simp [assocSet]
  | cons e t ih =>
    obtain ⟨f, s⟩ := e
    rw [List.map_cons, List.nodup_cons] at h
    simp only [assocSet]
    by_cases hk : f = k
    · rw [if_pos hk, List.map_cons, List.nodup_cons]
      exact ⟨h.1, h.2⟩
    · rw [if_neg hk, List.map_cons, List.nodup_cons]
      refine ⟨fun hmem => ?_, ih h.2⟩
      rcases mem_map_fst_assocSet hmem with h2 | h2
      · exact h.1 h2
      · exact hk h2

/-- Storing a fresh key grows the dictionary by exactly one entry. -/
lemma length_assocSet_fresh {α : Type} {l : List (String × α)} {k : String} (v : α)
    (h : k ∉ l.map Prod.fst) : (assocSet l k v).length = l.length + 1 := by
  induction l with
  | nil => rfl
  | cons e t ih =>
    obtain ⟨f, s⟩ := e
    rw [List.map_cons, List.mem_cons] at h
    push_neg at h
    simp only [assocSet]
    rw [if_neg (fun he => h.1 he.symm), List.length_cons, List.length_cons, ih h.2]

/-- The stored pair is a member of the dictionary after the store. -/
lemma mem_assocSet_self {α : Type} (l : List (String × α)) (k : String) (v : α) :
    (k, v) ∈ assocSet l k v := by
  induction l with
  | nil => simp [assocSet]
  | cons e t ih =>
    obtain ⟨f, s⟩ := e
    simp only [assocSet]
    by_cases hk : f = k
    · rw [if_pos hk]
      subst hk
      exact List.mem_cons_self _ _
    · rw [if_neg hk]
      exact List.mem_cons_of_mem _ ih

/-- Entries under other keys survive a dictionary store. -/
lemma mem_assocSet_of_ne {α : Type} {k2 : String} {w : α} (k : String) (v : α)
    (hne : k2 ≠ k) : ∀ {l : List (String × α)}, (k2, w) ∈ l → (k2, w) ∈ assocSet l k v := by
  intro l
  induction l with
  | nil => intro h; simp at h
  | cons e t ih =>
    obtain ⟨f, s⟩ := e
    intro hmem
    simp only [assocSet]
    by_cases hk : f = k
    · rw [if_pos hk]
      rcases List.mem_cons.mp hmem with h | h
      · rw [Prod.mk.injEq] at h
        exact absurd (h.1.trans hk) hne
      · exact List.mem_cons_of_mem _ h
    · rw [if_neg hk]
      rcases List.mem_cons.mp hmem with h | h
      · rw [h]
        exact List.mem_cons_self _ _
      · exact List.mem_cons_of_mem _ (ih h)

/-- Appending to a fixed string on the left is injective. -/
lemma str_append_left_cancel {s a b : String} (h : s ++ a = s ++ b) : a = b := by
  have h2 := congrArg String.data h
  simp only [String.data_append] at h2
  cases a
  cases b
  exact congrArg String.mk (List.append_cancel_left h2)

/-- Output names with the filled marker never equal names with the original marker. -/
lemma filled_ne_original (b b2 : String) : "filled_" ++ b ≠ "original_" ++ b2 := by
  intro h
  have h2 := congrArg String.data h
  simp only [String.data_append] at h2
  exact absurd (List.head_eq_of_cons_eq h2) (by decide)

/-- Every name in the processing loop output comes from the starting directory
or is the filled or original name of some processed base name. -/
lemma processLoop_names {α : Type} (fill : α → Bool × α) (fs : String → Option α) :
    ∀ (bs : List String) (outd : List (String × α)) (p : String × α),
      p ∈ processLoop fill fs bs outd →
      p.1 ∈ outd.map Prod.fst ∨ ∃ b ∈ bs, p.1 = "filled_" ++ b ∨ p.1 = "original_" ++ b := by
  intro bs
  induction bs with
  | nil => intro outd p h; exact Or.inl (by simpa [processLoop] using List.mem_map_of_mem Prod.fst h)
  | cons b rest ih =>
    intro outd p h
    simp only [processLoop] at h
    rcases hfs : fs b with _ | c
    · rw [hfs] at h
      rcases ih outd p h with h2 | ⟨b2, hb2, h3⟩
      · exact Or.inl h2
      · exact Or.inr ⟨b2, List.mem_cons_of_mem _ hb2, h3⟩
    · rw [hfs] at h
      dsimp only at h
      by_cases hw : (fill c).1 = true
      · rw [if_pos hw] at h
        rcases ih _ p h with h2 | ⟨b2, hb2, h3⟩
        · rcases mem_map_fst_assocSet h2 with h3 | h3
          · exact Or.inl h3
          · exact Or.inr ⟨b, by simp, Or.inl h3⟩
        · exact Or.inr ⟨b2, List.mem_cons_of_mem _ hb2, h3⟩
      · rw [if_neg hw] at h
        rcases ih _ p h with h2 | ⟨b2, hb2, h3⟩
        · rcases mem_map_fst_assocSet h2 with h3 | h3
          · exact Or.inl h3
          · exact Or.inr ⟨b, by simp, Or.inr h3⟩
        · exact Or.inr ⟨b2, List.mem_cons_of_mem _ hb2, h3⟩

/-- The processing loop preserves key uniqueness of the output directory. -/
lemma processLoop_nodup {α : Type} (fill : α → Bool × α) (fs : String → Option α) :
    ∀ (bs : List String) (outd : List (String × α)),
      (outd.map Prod.fst).Nodup → ((processLoop fill fs bs outd).map Prod.fst).Nodup := by
  intro bs
  induction bs with
  | nil => intro outd h; simpa [processLoop] using h
  | cons b rest ih =>
    intro outd h
    simp only [processLoop]
    rcases hfs : fs b with _ | c
    · exact ih outd h
    · dsimp only
      by_cases hw : (fill c).1 = true
      · rw [if_pos hw]
        exact ih _ (nodup_assocSet _ _ h)
      · rw [if_neg hw]
        exact ih _ (nodup_assocSet _ _ h)

/-- When the base names are distinct, extracted, and their output names are
absent from the output directory, the loop adds exactly one output per base name. -/
lemma processLoop_length {α : Type} (fill : α → Bool × α) (fs : String → Option α) :
    ∀ (bs : List String) (outd : List (String × α)),
      bs.Nodup → (∀ b ∈ bs, fs b ≠ none) →
      (∀ b ∈ bs, ("filled_" ++ b) ∉ outd.map Prod.fst ∧ ("original_" ++ b) ∉ outd.map Prod.fst) →
      (processLoop fill fs bs outd).length = outd.length + bs.length := by
  intro bs
  induction bs with
  | nil => intro outd _ _ _; simp [processLoop]
  | cons b rest ih =>
    intro outd hnd hfs hfresh
    simp only [processLoop]
    rcases hb : fs b with _ | c
    · exact absurd hb (hfs b (by simp))
    · dsimp only
      have hnd2 := (List.nodup_cons.mp hnd).2
      have hbmem := (List.nodup_cons.mp hnd).1
      have hfresh2 : ∀ nm x, (nm = "filled_" ++ b ∨ nm = "original_" ++ b) →
          ∀ b2 ∈ rest,
            ("filled_" ++ b2) ∉ ((assocSet outd nm x).map Prod.fst) ∧
            ("original_" ++ b2) ∉ ((assocSet outd nm x).map Prod.fst) := by
        intro nm x hnm b2 hb2
        have hne : b ≠ b2 := fun he => hbmem (he ▸ hb2)
        constructor
        · intro hmem
          rcases mem_map_fst_assocSet hmem with h2 | h2
          · exact (hfresh b2 (List.mem_cons_of_mem _ hb2)).1 h2
          · rcases hnm with h3 | h3
            · rw [h3] at h2
              exact hne (str_append_left_cancel h2).symm
            · rw [h3] at h2
              exact filled_ne_original b2 b h2
        · intro hmem
          rcases mem_map_fst_assocSet hmem with h2 | h2
          · exact (hfresh b2 (List.mem_cons_of_mem _ hb2)).2 h2
          · rcases hnm with h3 | h3
            · rw [h3] at h2
              exact filled_ne_original b b2 h2.symm
            · rw [h3] at h2
              exact hne (str_append_left_cancel h2).symm
      by_cases hw : (fill c).1 = true
      · rw [if_pos hw]
        rw [ih _ hnd2 (fun b2 hb2 => hfs b2 (List.mem_cons_of_mem _ hb2))
          (hfresh2 _ _ (Or.inl rfl))]
        rw [length_assocSet_fresh _ (hfresh b (by simp)).1]
        simp [Nat.add_assoc, Nat.add_comm 1]
      · rw [if_neg hw]
        rw [ih _ hnd2 (fun b2 hb2 => hfs b2 (List.mem_cons_of_mem _ hb2))
          (hfresh2 _ _ (Or.inr rfl))]
        rw [length_assocSet_fresh _ (hfresh b (by simp)).2]
        simp [Nat.add_assoc, Nat.add_comm 1]

/-- An output entry whose key differs from every later output name survives the
rest of the processing loop. -/
lemma processLoop_mem_preserve {α : Type} (fill : α → Bool × α) (fs : String → Option α) :
    ∀ (bs : List String) (outd : List (String × α)) (k : String) (v : α),
      (k, v) ∈ outd →
      (∀ b ∈ bs, ("filled_" ++ b) ≠ k ∧ ("original_" ++ b) ≠ k) →
      (k, v) ∈ processLoop fill fs bs outd := by
  intro bs
  induction bs with
  | nil => intro outd k v h _; simpa [processLoop] using h
  | cons b rest ih =>
    intro outd k v h hne
    simp only [processLoop]
    rcases hb : fs b with _ | c
    · exact ih outd k v h (fun b2 hb2 => hne b2 (List.mem_cons_of_mem _ hb2))
    · dsimp only
      by_cases hw : (fill c).1 = true
      · rw [if_pos hw]
        exact ih _ k v (mem_assocSet_of_ne _ _ (fun he => (hne b (by simp)).1 he.symm) h)
          (fun b2 hb2 => hne b2 (List.mem_cons_of_mem _ hb2))
      · rw [if_neg hw]
        exact ih _ k v (mem_assocSet_of_ne _ _ (fun he => (hne b (by simp)).2 he.symm) h)
          (fun b2 hb2 => hne b2 (List.mem_cons_of_mem _ hb2))

/-- Each distinct extracted base name contributes its filled or original entry
to the loop output. -/
lemma processLoop_mem_once {α : Type} (fill : α → Bool × α) (fs : String → Option α) :
    ∀ (bs : List String) (outd : List (String × α)) (b : String) (c : α),
      bs.Nodup → b ∈ bs → fs b = some c →
      (if (fill c).1 then ("filled_" ++ b, (fill c).2) else ("original_" ++ b, c)) ∈
        processLoop fill fs bs outd := by
  intro bs
  induction bs with
  | nil => intro _ _ _ _ h _; simp at h
  | cons b2 rest ih =>
    intro outd b c hnd hmem hb
    rcases List.mem_cons.mp hmem with he | hmem2
    · subst he
      simp only [processLoop, hb]
      have hbnotin := (List.nodup_cons.mp hnd).1
      by_cases hw : (fill c).1 = true
      · rw [if_pos hw, if_pos hw]
        refine processLoop_mem_preserve fill fs rest _ _ _ (mem_assocSet_self _ _ _) ?_
        intro b3 hb3
        have hne : b ≠ b3 := fun he2 => hbnotin (he2 ▸ hb3)
        exact ⟨fun he2 => hne (str_append_left_cancel he2).symm,
          fun he2 => filled_ne_original b b3 he2.symm⟩
      · rw [if_neg hw, if_neg hw]
        refine processLoop_mem_preserve fill fs rest _ _ _ (mem_assocSet_self _ _ _) ?_
        intro b3 hb3
        have hne : b ≠ b3 := fun he2 => hbnotin (he2 ▸ hb3)
        exact ⟨fun he2 => filled_ne_original b3 b he2,
          fun he2 => hne (str_append_left_cancel he2).symm⟩
    · simp only [processLoop]
      rcases hb2 : fs b2 with _ | c2
      · exact ih outd b c (List.nodup_cons.mp hnd).2 hmem2 hb
      · dsimp only
        by_cases hw : (fill c2).1 = true
        · rw [if_pos hw]
          exact ih _ b c (List.nodup_cons.mp hnd).2 hmem2 hb
        · rw [if_neg hw]
          exact ih _ b c (List.nodup_cons.mp hnd).2 hmem2 hb

/-- The extracted base names of a cons, split into the head's contribution and
the tail's. -/
lemma extractPdfList_cons {α : Type} (e : String × α) (t : List (String × α)) :
    extractPdfList (e :: t) =
      (if lowerEndsWithPdf e.1 then [baseName e.1] else []) ++ extractPdfList t := by
  simp only [extractPdfList, List.filterMap_cons]
  cases hp : lowerEndsWithPdf e.1 <;> simp

/-- A name with an extracted file is an extracted base name. -/
lemma extractFiles_some_mem {α : Type} :
    ∀ (entries : List (String × α)) (n : String) (c : α),
      extractFiles entries n = some c → n ∈ extractPdfList entries := by
  intro entries
  induction entries with
  | nil =>
    intro n c h
    simp only [extractFiles] at h
    exact absurd h (by simp)
  | cons e t ih =>
    intro n c h
    simp only [extractFiles] at h
    rw [extractPdfList_cons, List.mem_append]
    rcases ht : extractFiles t n with _ | c2
    · rw [ht] at h
      by_cases hp : (lowerEndsWithPdf e.1 && (n == baseName e.1)) = true
      · rw [Bool.and_eq_true] at hp
        refine Or.inl ?_
        rw [if_pos hp.1]
        simp [beq_iff_eq.mp hp.2]
      · rw [if_neg hp] at h
        exact absurd h (by simp)
    · rw [ht] at h
      exact Or.inr (ih n c2 ht)

/-- Every extracted base name has an extracted file. -/
lemma extractFiles_mem_ne_none {α : Type} :
    ∀ (entries : List (String × α)) (b : String),
      b ∈ extractPdfList entries → extractFiles entries b ≠ none := by
  intro entries
  induction entries with
  | nil => intro b h; simp [extractPdfList] at h
  | cons e t ih =>
    intro b h
    rw [extractPdfList_cons, List.mem_append] at h
    simp only [extractFiles]
    rcases ht : extractFiles t b with _ | c
    · rcases h with h | h
      · rcases hp : lowerEndsWithPdf e.1 with _ | _
        · rw [hp] at h
          simp at h
        · rw [hp] at h
          simp only [if_true, List.mem_singleton] at h
          rw [if_pos (by rw [Bool.and_eq_true]; exact ⟨rfl, beq_iff_eq.mpr h⟩)]
          simp
      · exact absurd ht (ih b h)
    · simp

/-- With distinct base names, each PDF entry is extracted to its own content. -/
lemma extractFiles_lookup_nodup {α : Type} :
    ∀ (entries : List (String × α)),
      (extractPdfList entries).Nodup →
      ∀ e ∈ entries, lowerEndsWithPdf e.1 = true →
        extractFiles entries (baseName e.1) = some e.2 := by
  intro entries
  induction entries with
  | nil => intro _ e h; simp at h
  | cons e2 t ih =>
    intro hnd e hmem hpdf
    rw [extractPdfList_cons] at hnd
    rcases List.mem_cons.mp hmem with he | hmem2
    · subst he
      rw [hpdf] at hnd
      simp only [if_true, List.singleton_append, List.nodup_cons] at hnd
      simp only [extractFiles]
      rcases ht : extractFiles t (baseName e.1) with _ | c
      · rw [if_pos (by rw [Bool.and_eq_true]; exact ⟨hpdf, beq_iff_eq.mpr rfl⟩)]
      · exact absurd (extractFiles_some_mem t _ c ht) hnd.1
    · have hnd2 : (extractPdfList t).Nodup := (List.nodup_append.mp hnd).2.1
      have hres := ih hnd2 e hmem2 hpdf
      simp only [extractFiles, hres]

/-- C9 amended: the output archive holds each name at most once; every output
entry is named filled or original over an extracted base name; and when the PDF
entries have pairwise distinct base names there is exactly one output per PDF
entry, filled with the filled bytes on success and the original bytes
otherwise. Entries sharing a base name collapse onto one output, the later
entry's bytes having overwritten the earlier ones during extraction. -/
theorem C9_zip_amended {α : Type} (fill : α → Bool × α) (entries : List (String × α)) :
    ((process_zip fill entries).map Prod.fst).Nodup ∧
    (∀ p ∈ process_zip fill entries, ∃ b ∈ extractPdfList entries,
      p.1 = "filled_" ++ b ∨ p.1 = "original_" ++ b) ∧
    ((extractPdfList entries).Nodup →
      (process_zip fill entries).length = (extractPdfList entries).length) ∧
    ((extractPdfList entries).Nodup →
      ∀ e ∈ entries, lowerEndsWithPdf e.1 = true →
        (if (fill e.2).1 then ("filled_" ++ baseName e.1, (fill e.2).2)
         else ("original_" ++ baseName e.1, e.2)) ∈ process_zip fill entries) := by
  refine ⟨?_, ?_, ?_, ?_⟩
  · exact processLoop_nodup fill (extractFiles entries) (extractPdfList entries) [] (by simp)
  · intro p hp
    rcases processLoop_names fill (extractFiles entries) (extractPdfList entries) [] p hp with
      h | ⟨b, hb, h⟩
    · simp at h
    · exact ⟨b, hb, h⟩
  · intro hnd
    rw [process_zip, processLoop_length fill (extractFiles entries) (extractPdfList entries) []
      hnd (fun b hb => extractFiles_mem_ne_none entries b hb) (fun b _ => by simp)]
    simp
  · intro hnd e hmem hpdf
    exact processLoop_mem_once fill (extractFiles entries) (extractPdfList entries) []
      (baseName e.1) e.2 hnd
      (by
        have := extractFiles_lookup_nodup entries hnd e hmem hpdf
        exact extractFiles_some_mem entries _ _ this)
      (extractFiles_lookup_nodup entries hnd e hmem hpdf)

/-- C9 witness: a one-entry archive through the amended theorem. -/
theorem C9_zip_witness :
    ("filled_doc.pdf", 1) ∈ process_zip (fun c : Nat => (true, c + 1)) [("doc.pdf", 0)] ∧
    (process_zip (fun c : Nat => (true, c + 1)) [("doc.pdf", 0)]).length = 1 := by
  constructor
  · have h := (C9_zip_amended (fun c : Nat => (true, c + 1)) [("doc.pdf", 0)]).2.2.2
      (by decide) ("doc.pdf", 0) (by decide) (by decide)
    simpa using h
  · have h := (C9_zip_amended (fun c : Nat => (true, c + 1)) [("doc.pdf", 0)]).2.2.1 (by decide)
    simpa using h

/-- C9 counterexample: two PDF entries in different directories sharing the
base name x.pdf yield a single output entry, not one output per entry, and the
later entry's bytes overwrite the earlier ones. -/
theorem C9_counterexample :
    process_zip (fun c : Nat => (false, c)) [("a/x.pdf", 0), ("b/x.pdf", 1)] =
      [("original_x.pdf", 1)] ∧
    ([("a/x.pdf", 0), ("b/x.pdf", 1)] : List (String × Nat)).length = 2 := by
  exact ⟨rfl, rfl⟩

/-- The inner staging fold never stages a field whose current value is valid
for every logical key that aliases it. -/
lemma fields_foldl_not_mem {lk : String} {v : List Char} {als : List String}
    {f : AcroField}
    (hskip : als.contains f.name = true →
      ¬(f.value.isEmpty) = true ∧ is_acroform_field_already_filled lk f.value = true) :
    ∀ (fields : List AcroField),
      (∀ f2 ∈ fields, f2.name = f.name → f2 = f) →
      ∀ um, f.name ∉ um.map Prod.fst →
        f.name ∉ (fields.foldl (stageField lk v als) um).map Prod.fst := by
  intro fields
  induction fields with
  | nil => intro _ um h; simpa using h
  | cons f2 rest ih =>
    intro hinj um hum
    rw [List.foldl_cons]
    refine ih (fun f3 h3 => hinj f3 (List.mem_cons_of_mem _ h3)) _ ?_
    unfold stageField
    by_cases hal : als.contains f2.name = true
    · rw [if_pos hal]
      by_cases hsk : (!(f2.value.isEmpty) && is_acroform_field_already_filled lk f2.value) = true
      · rw [if_pos hsk]
        exact hum
      · rw [if_neg hsk]
        by_cases hfn : f2.name = f.name
        · exfalso
          have hf2 : f2 = f := hinj f2 (List.mem_cons_self _ _) hfn
          subst hf2
          have := hskip hal
          exact hsk (by rw [Bool.and_eq_true, Bool.not_eq_true']
                        exact ⟨Bool.eq_false_iff.mpr this.1, this.2⟩)
        · intro hmem
          rcases mem_map_fst_assocSet hmem with h2 | h2
          · exact hum h2
          · exact hfn h2.symm
    · rw [if_neg hal]
      exact hum

/-- The staging fold of fill_acroform over the alias table, generalized to an
arbitrary starting update map; buildUpdateMap is this fold started empty. -/
def buildUpdateMapFrom (fields : List AcroField) (values : List (String × List Char))
    (fieldAliases : List (String × List String)) (um : List (String × List Char)) :
    List (String × List Char) :=
  fieldAliases.foldl (fun um p =>
    match List.lookup p.1 values with
    | none => um
    | some v => if v.isEmpty then um else fields.foldl (stageField p.1 v p.2) um) um

/-- buildUpdateMap is the generalized fold started from the empty map. -/
lemma buildUpdateMap_eq_from (fields : List AcroField) (values : List (String × List Char))
    (fieldAliases : List (String × List String)) :
    buildUpdateMap fields values fieldAliases = buildUpdateMapFrom fields values fieldAliases [] := rfl

/-- The update map of fill_acroform never contains a field whose current value
is already valid for every logical key that aliases it. -/
lemma buildUpdateMap_not_mem {f : AcroField} (values : List (String × List Char))
    (hne : f.value ≠ [])
    (fields : List AcroField)
    (hinj : ∀ f2 ∈ fields, f2.name = f.name → f2 = f) :
    ∀ (fieldAliases : List (String × List String)),
      (∀ lk als, (lk, als) ∈ fieldAliases → als.contains f.name = true →
        is_acroform_field_already_filled lk f.value = true) →
      ∀ um, f.name ∉ um.map Prod.fst →
        f.name ∉ (buildUpdateMapFrom fields values fieldAliases um).map Prod.fst := by
  intro fieldAliases
  induction fieldAliases with
  | nil => intro _ um h; simpa [buildUpdateMapFrom] using h
  | cons p rest ih =>
    intro hfil um hum
    simp only [buildUpdateMapFrom, List.foldl_cons] at ih ⊢
    refine ih (fun lk als hmem => hfil lk als (List.mem_cons_of_mem _ hmem)) _ ?_
    rcases hlk : List.lookup p.1 values with _ | v
    · exact hum
    · show f.name ∉ List.map Prod.fst
        (if v.isEmpty = true then um else List.foldl (stageField p.1 v p.2) um fields)
      by_cases hv : v.isEmpty = true
      · rw [if_pos hv]
        exact hum
      · rw [if_neg hv]
        refine fields_foldl_not_mem ?_ fields hinj um hum
        intro hal
        refine ⟨by simpa [List.isEmpty_iff] using hne, hfil p.1 p.2 (List.mem_cons_self _ _) hal⟩

/-- C7 amended: alias-matched fields whose current value is already valid for
their field types are never staged; the strategy succeeds exactly when at least
one field is staged, and with zero staged fields it returns the document
unchanged and reports failure; when fields are staged, the updates are applied
through the first page only and the annotation entries of every page are
stripped, so the field values of every page after the first are unchanged even
for staged fields living there. -/
theorem C7_acroform_amended (doc : List AcroPage) (values : List (String × List Char))
    (fieldAliases : List (String × List String))
    (hnd : ((getFieldsOf doc).map AcroField.name).Nodup) :
    ((fill_acroform doc values fieldAliases).1 = true ↔
      buildUpdateMap (getFieldsOf doc) values fieldAliases ≠ []) ∧
    (buildUpdateMap (getFieldsOf doc) values fieldAliases = [] →
      fill_acroform doc values fieldAliases = (false, doc)) ∧
    (∀ f ∈ getFieldsOf doc, f.value ≠ [] →
      (∀ lk als, (lk, als) ∈ fieldAliases → als.contains f.name = true →
        is_acroform_field_already_filled lk f.value = true) →
      f.name ∉ (buildUpdateMap (getFieldsOf doc) values fieldAliases).map Prod.fst) ∧
    (∀ p0 rest, doc = p0 :: rest →
      buildUpdateMap (getFieldsOf doc) values fieldAliases ≠ [] →
      (fill_acroform doc values fieldAliases).2 =
        (⟨p0.fields.map (applyUpdates (buildUpdateMap (getFieldsOf doc) values fieldAliases)),
          false⟩ : AcroPage) :: rest.map (fun p => (⟨p.fields, false⟩ : AcroPage)) ∧
      ((fill_acroform doc values fieldAliases).2.drop 1).map AcroPage.fields =
        rest.map AcroPage.fields) := by
  refine ⟨?_, ?_, ?_, ?_⟩
  · unfold fill_acroform
    by_cases h : (buildUpdateMap (getFieldsOf doc) values fieldAliases).isEmpty = true
    · rw [if_pos h]
      simp [List.isEmpty_iff.mp h]
    · rw [if_neg h]
      have h2 : buildUpdateMap (getFieldsOf doc) values fieldAliases ≠ [] := by
        simpa [List.isEmpty_iff] using h
      cases doc <;> simp [h2]
  · intro h
    unfold fill_acroform
    rw [if_pos (by simp [h])]
  · intro f hf hne hfil
    rw [buildUpdateMap_eq_from]
    exact buildUpdateMap_not_mem values hne (getFieldsOf doc)
      (fun f2 h2 he => List.inj_on_of_nodup_map hnd h2 hf he) fieldAliases hfil [] (by simp)
  · intro p0 rest hdoc hne
    subst hdoc
    unfold fill_acroform
    rw [if_neg (by simpa [List.isEmpty_iff] using hne)]
    refine ⟨rfl, ?_⟩
    simp [List.map_map]

/-- C7 witness: one empty field matching a phone alias is staged and the
strategy reports success. -/
theorem C7_acroform_witness :
    (fill_acroform [(⟨[⟨"f1", []⟩], true⟩ : AcroPage)]
      [("phone", "5551234567".toList)] [("phone", ["f1"])]).1 = true :=
  (C7_acroform_amended _ _ _ (by decide)).1.mpr (by decide)

/-- C7 counterexample: a staged field whose only widget lives on the second
page is reported as successfully filled, yet its value is untouched because
the source applies the update map to the first page only. -/
theorem C7_counterexample :
    (fill_acroform [(⟨[], true⟩ : AcroPage), (⟨[⟨"phone_field", []⟩], true⟩ : AcroPage)]
      [("phone", "5551234567".toList)] [("phone", ["phone_field"])]).1 = true ∧
    ("phone_field", "5551234567".toList) ∈
      buildUpdateMap (getFieldsOf [(⟨[], true⟩ : AcroPage), (⟨[⟨"phone_field", []⟩], true⟩ : AcroPage)])
        [("phone", "5551234567".toList)] [("phone", ["phone_field"])] ∧
    (fill_acroform [(⟨[], true⟩ : AcroPage), (⟨[⟨"phone_field", []⟩], true⟩ : AcroPage)]
      [("phone", "5551234567".toList)] [("phone", ["phone_field"])]).2 =
      [(⟨[], false⟩ : AcroPage), (⟨[⟨"phone_field", []⟩], false⟩ : AcroPage)] := by
  refine ⟨rfl, by decide, rfl⟩

/-- The running best of the Python max never loses confidence. -/
lemma pyMaxGo_conf_ge : ∀ (t : List Cand) (b : Cand), b.conf ≤ (pyMaxGo t b).conf := by
  intro t
  induction t with
  | nil => intro b; exact le_refl _
  | cons c t ih =>
    intro b
    simp only [pyMaxGo]
    by_cases h : b.conf < c.conf
    · rw [if_pos h]
      exact le_of_lt (lt_of_lt_of_le h (ih c))
    · rw [if_neg h]
      exact ih b

/-- The Python max result is the seed or one of the scanned elements. -/
lemma pyMaxGo_mem : ∀ (t : List Cand) (b : Cand), pyMaxGo t b = b ∨ pyMaxGo t b ∈ t := by
  intro t
  induction t with
  | nil => intro b; exact Or.inl rfl
  | cons c t ih =>
    intro b
    simp only [pyMaxGo]
    rcases ih (if b.conf < c.conf then c else b) with h | h
    · rw [h]
      by_cases hc : b.conf < c.conf
      · rw [if_pos hc]
        exact Or.inr (List.mem_cons_self _ _)
      · rw [if_neg hc]
        exact Or.inl rfl
    · exact Or.inr (List.mem_cons_of_mem _ h)

/-- The Python max result dominates every scanned element. -/
lemma pyMaxGo_ge : ∀ (t : List Cand) (b x : Cand), x ∈ t → x.conf ≤ (pyMaxGo t b).conf := by
  intro t
  induction t with
  | nil => intro b x hx; simp at hx
  | cons c t ih =>
    intro b x hx
    simp only [pyMaxGo]
    rcases List.mem_cons.mp hx with hxc | hx
    · rw [hxc]
      by_cases h : b.conf < c.conf
      · rw [if_pos h]
        exact pyMaxGo_conf_ge t c
      · rw [if_neg h]
        exact le_trans (le_of_not_lt h) (pyMaxGo_conf_ge t b)
    · exact ih _ x hx

/-- The Python max keeps the seed on ties: when the result is not the seed, it
occurs in the scanned list strictly after only elements of smaller confidence. -/
lemma pyMaxGo_first : ∀ (t : List Cand) (b : Cand),
    pyMaxGo t b = b ∨
    (∃ pre post, t = pre ++ (pyMaxGo t b) :: post ∧ b.conf < (pyMaxGo t b).conf ∧
      ∀ x ∈ pre, x.conf < (pyMaxGo t b).conf) := by
  intro t
  induction t with
  | nil => intro b; exact Or.inl rfl
  | cons c t ih =>
    intro b
    simp only [pyMaxGo]
    by_cases h : b.conf < c.conf
    · rw [if_pos h]
      rcases ih c with h1 | ⟨pre, post, h1, h2, h3⟩
      · right
        refine ⟨[], t, ?_, ?_, by simp⟩
        · rw [h1]
          simp
        · rw [h1]
          exact h
      · right
        refine ⟨c :: pre, post, ?_, lt_trans h h2, ?_⟩
        · rw [List.cons_append, ← h1]
        · intro x hx
          rcases List.mem_cons.mp hx with hxc | hx
          · rw [hxc]
            exact h2
          · exact h3 x hx
    · rw [if_neg h]
      rcases ih b with h1 | ⟨pre, post, h1, h2, h3⟩
      · exact Or.inl h1
      · right
        refine ⟨c :: pre, post, ?_, h2, ?_⟩
        · rw [List.cons_append, ← h1]
        · intro x hx
          rcases List.mem_cons.mp hx with hxc | hx
          · rw [hxc]
            exact lt_of_le_of_lt (le_of_not_lt h) h2
          · exact h3 x hx

/-- Specification of the Python max with key: the result is a member of maximal
confidence and is the first member attaining it. -/
lemma pyMaxConf_spec : ∀ {l : List Cand} {c : Cand}, pyMaxConf l = some c →
    c ∈ l ∧ (∀ x ∈ l, x.conf ≤ c.conf) ∧
    ∃ pre post, l = pre ++ c :: post ∧ ∀ x ∈ pre, x.conf < c.conf := by
  intro l c h
  cases l with
  | nil => simp [pyMaxConf] at h
  | cons b t =>
    simp only [pyMaxConf, Option.some.injEq] at h
    subst h
    refine ⟨?_, ?_, ?_⟩
    · rcases pyMaxGo_mem t b with h | h
      · rw [h]
        exact List.mem_cons_self _ _
      · exact List.mem_cons_of_mem _ h
    · intro x hx
      rcases List.mem_cons.mp hx with hxb | hx
      · rw [hxb]
        exact pyMaxGo_conf_ge t b
      · exact pyMaxGo_ge t b x hx
    · rcases pyMaxGo_first t b with h | ⟨pre, post, h1, h2, h3⟩
      · refine ⟨[], t, ?_, by simp⟩
        rw [h]
        simp
      · refine ⟨b :: pre, post, ?_, ?_⟩
        · rw [List.cons_append, ← h1]
        · intro x hx
          rcases List.mem_cons.mp hx with hxb | hx
          · rw [hxb]
            exact h2
          · exact h3 x hx

/-- A stamp emitted for a hits entry carries the entry's key as its field type
and the Python max of the entry's candidates as its chosen candidate. -/
lemma overlayStamp_spec {doc : List PageData} {values : List (String × List Char)}
    {mapping : List MapEntry} {e : String × List Cand} {s : Stamp}
    (h : overlayStamp doc values mapping e = some s) :
    s.ft = e.1 ∧ pyMaxConf e.2 = some s.cand := by
  unfold overlayStamp at h
  by_cases h1 : e.2.isEmpty = true
  · rw [if_pos h1] at h
    exact absurd h (by simp)
  · rw [if_neg h1] at h
    rcases hl : lookupValue values e.1 with _ | v
    · rw [hl] at h
      exact absurd h (by simp)
    · rw [hl] at h
      dsimp only at h
      rcases hm : pyMaxConf e.2 with _ | best
      · rw [hm] at h
        exact absurd h (by simp)
      · rw [hm] at h
        dsimp only at h
        by_cases h2 : is_field_already_filled (pageAt doc best.page) e.1 best.placementBbox = true
        · rw [if_pos h2] at h
          exact absurd h (by simp)
        · rw [if_neg h2] at h
          rw [Option.some.injEq] at h
          refine ⟨by rw [← h], ?_⟩
          rw [← h]

/-- A hits entry whose best candidate region is already filled emits no stamp. -/
lemma overlayStamp_none_of_filled {doc : List PageData} {values : List (String × List Char)}
    {mapping : List MapEntry} {e : String × List Cand} {best : Cand}
    (hmax : pyMaxConf e.2 = some best)
    (hfill : is_field_already_filled (pageAt doc best.page) e.1 best.placementBbox = true) :
    overlayStamp doc values mapping e = none := by
  unfold overlayStamp
  have hne : ¬(e.2.isEmpty = true) := by
    intro h
    rw [List.isEmpty_iff.mp h] at hmax
    exact absurd hmax (by simp [pyMaxConf])
  rw [if_neg hne]
  rcases hl : lookupValue values e.1 with _ | v
  · rfl
  · simp [hmax, hfill]

/-- No stamp is emitted for a field type absent from the hits keys. -/
lemma overlay_count_zero {doc : List PageData} {values : List (String × List Char)}
    {mapping : List MapEntry} {ft : String} :
    ∀ (anchors : List (String × List Cand)), ft ∉ anchors.map Prod.fst →
      (overlay_values_enhanced doc anchors values mapping).countP (fun s => s.ft == ft) = 0 := by
  intro anchors h
  rw [List.countP_eq_zero]
  intro s hs
  rw [overlay_values_enhanced, List.mem_filterMap] at hs
  obtain ⟨e, he, hse⟩ := hs
  have hft := (overlayStamp_spec hse).1
  intro hbeq
  have heq : s.ft = ft := by simpa using hbeq
  apply h
  rw [← heq, hft]
  exact List.mem_map_of_mem Prod.fst he

/-- With unique hits keys, at most one stamp is emitted per field type. -/
lemma overlay_count_le_one {doc : List PageData} {values : List (String × List Char)}
    {mapping : List MapEntry} {ft : String} :
    ∀ (anchors : List (String × List Cand)), (anchors.map Prod.fst).Nodup →
      (overlay_values_enhanced doc anchors values mapping).countP (fun s => s.ft == ft) ≤ 1 := by
  intro anchors
  induction anchors with
  | nil => intro _; simp [overlay_values_enhanced]
  | cons e t ih =>
    intro hnd
    rw [List.map_cons, List.nodup_cons] at hnd
    rw [overlay_values_enhanced, List.filterMap_cons]
    rcases hF : overlayStamp doc values mapping e with _ | s
    · exact ih hnd.2
    · rw [List.countP_cons]
      by_cases hs : ((fun s => s.ft == ft) s) = true
      · rw [if_pos hs]
        have hft : e.1 = ft := by
          rw [← (show s.ft = ft by simpa using hs), (overlayStamp_spec hF).1]

        have h0 : (overlay_values_enhanced doc t values mapping).countP (fun s => s.ft == ft) = 0 :=
          overlay_count_zero t (by rw [← hft]; exact hnd.1)
        rw [show List.filterMap (overlayStamp doc values mapping) t =
          overlay_values_enhanced doc t values mapping from rfl, h0]
      · rw [if_neg hs]
        simpa using ih hnd.2

/-- Under unique keys, a key determines its association list value. -/
lemma nodup_keys_unique {β : Type} : ∀ {l : List (String × β)} {k : String} {a b : β},
    (l.map Prod.fst).Nodup → (k, a) ∈ l → (k, b) ∈ l → a = b := by
  intro l
  induction l with
  | nil => intro k a b _ h; simp at h
  | cons e t ih =>
    intro k a b hnd ha hb
    rw [List.map_cons, List.nodup_cons] at hnd
    rcases List.mem_cons.mp ha with ha | ha
    · rcases List.mem_cons.mp hb with hb | hb
      · have := ha.trans hb.symm
        rw [Prod.mk.injEq] at this
        exact this.2
      · exfalso
        apply hnd.1
        rw [← ha]
        simpa using List.mem_map_of_mem Prod.fst hb
    · rcases List.mem_cons.mp hb with hb | hb
      · exfalso
        apply hnd.1
        rw [← hb]
        simpa using List.mem_map_of_mem Prod.fst ha
      · exact ih hnd.2 ha hb

/-- C6: over a hits table with unique field type keys, which is what the scan
always produces (third conjunct), the overlay writes at most one stamp per
field type, and every stamp's chosen candidate is a recorded candidate of its
field type, of maximal confidence, preceded in recording order only by
candidates of strictly smaller confidence, so ties go to the first recorded. -/
theorem C6_single_stamp (doc : List PageData) (values : List (String × List Char))
    (mapping : List MapEntry) (anchors : List (String × List Cand)) (ft : String)
    (hnd : (anchors.map Prod.fst).Nodup) :
    (overlay_values_enhanced doc anchors values mapping).countP (fun s => s.ft == ft) ≤ 1 ∧
    (∀ s ∈ overlay_values_enhanced doc anchors values mapping,
      ∀ m, (s.ft, m) ∈ anchors →
        s.cand ∈ m ∧ (∀ c ∈ m, c.conf ≤ s.cand.conf) ∧
        ∃ pre post, m = pre ++ s.cand :: post ∧ ∀ c ∈ pre, c.conf < s.cand.conf) ∧
    (∀ (ratio : List Char → List Char → ℚ) (doc2 : List PageData)
       (values2 : List (String × List Char)),
      ((search_labels_positions_enhanced ratio doc2 values2).map Prod.fst).Nodup) := by
  refine ⟨overlay_count_le_one anchors hnd, ?_, ?_⟩
  · intro s hs m hm
    rw [overlay_values_enhanced, List.mem_filterMap] at hs
    obtain ⟨e, he, hse⟩ := hs
    obtain ⟨hft, hmax⟩ := overlayStamp_spec hse
    have he2 : (s.ft, e.2) ∈ anchors := by
      rw [hft]
      exact he
    have hm2 : m = e.2 := nodup_keys_unique hnd hm he2
    subst hm2
    exact pyMaxConf_spec hmax
  · intro ratio doc2 values2
    have hkeys : (search_labels_positions_enhanced ratio doc2 values2).map Prod.fst =
        FIELD_MAP.map Prod.fst := by
      rw [search_labels_positions_enhanced, List.map_map]
      rfl
    rw [hkeys]
    decide

/-- Concrete page used by the stamping witnesses: text extraction is empty
everywhere. -/
def pageC : Page := fun _ => []

/-- Concrete recorded candidate for the email field. -/
def candC : Cand := ⟨0, ⟨10, 10, 40, 20⟩, ⟨95, 8, 135, 24⟩, "Email:".toList, 100, "email"⟩

/-- Concrete one-page document for the stamping witnesses. -/
def docC : List PageData := [⟨pageC, 300, 100, []⟩]

/-- Concrete hits table with one email candidate. -/
def anchorsC : List (String × List Cand) := [("email", [candC])]

/-- Concrete validated values for the stamping witnesses. -/
def valuesC : List (String × List Char) := [("email", "a@b.com".toList)]

/-- The stamp the overlay emits for the concrete scenario. -/
def stampX : Stamp := (overlayStamp docC valuesC [] ("email", [candC])).get (by rfl)

/-- C6 witness: the overlay of the concrete scenario through the theorem. -/
theorem C6_single_stamp_witness :
    (overlay_values_enhanced docC anchorsC valuesC []).countP (fun s => s.ft == "email") ≤ 1 ∧
    (candC ∈ [candC] ∧ (∀ c ∈ [candC], c.conf ≤ candC.conf) ∧
      ∃ pre post, ([candC] : List Cand) = pre ++ candC :: post ∧
        ∀ c ∈ pre, c.conf < candC.conf) := by
  have h := C6_single_stamp docC valuesC [] anchorsC "email" (by decide)
  refine ⟨h.1, ?_⟩
  have h2 := h.2.1 stampX
    (by rw [show overlay_values_enhanced docC anchorsC valuesC [] = [stampX] from rfl]
        exact List.mem_cons_self _ _)
    [candC]
    (by exact List.mem_cons_self _ _)
  exact h2

/-- C1 amended: for every field type with a detection pattern, a non-empty
region text that matches the pattern makes the Already-Filled Detector report
filled, except the deliberate phone carve-out: digit-free placeholder
punctuation is reported as not filled; and the overlay writes nothing for a
field type whose chosen candidate region the detector reports filled. -/
theorem C1_detector_amended :
    (∀ (page : Page) (ft : String) (bbox : Rect),
      FIELD_DETECTION_keys.contains ft = true →
      pyStrip (page bbox) ≠ [] →
      detectionSearch ft (pyStrip (page bbox)) = true →
      (ft = "phone" → (stripPhonePunct (pyStrip (page bbox))).length < 5 →
        isPlaceholderPhone (pyStrip (page bbox)) = false) →
      is_field_already_filled page ft bbox = true) ∧
    (∀ (doc : List PageData) (anchors : List (String × List Cand))
       (values : List (String × List Char)) (mapping : List MapEntry)
       (ft : String) (m : List Cand) (best : Cand),
      (anchors.map Prod.fst).Nodup → (ft, m) ∈ anchors → pyMaxConf m = some best →
      is_field_already_filled (pageAt doc best.page) ft best.placementBbox = true →
      ∀ s ∈ overlay_values_enhanced doc anchors values mapping, s.ft ≠ ft) := by
  constructor
  · intro page ft bbox hcont htext hmatch hph
    have h0 : is_field_already_filled page ft bbox =
        (if (pyStrip (page bbox)).isEmpty then false
         else if ft == "phone" && decide ((stripPhonePunct (pyStrip (page bbox))).length < 5) &&
             isPlaceholderPhone (pyStrip (page bbox)) then false
         else if ft == "phone" && (phonePatternsSearch (pyStrip (page bbox)) ||
             decide (7 ≤ (digitsOf (pyStrip (page bbox))).length)) then true
         else if detectionSearch ft (pyStrip (page bbox)) then true
         else if ft == "email" && (pyStrip (page bbox)).contains '@' then true
         else false) := by
      unfold is_field_already_filled
      rw [if_neg (by rw [hcont]; decide)]
    rw [h0, if_neg (by simpa [List.isEmpty_iff] using htext)]
    by_cases hft : ft = "phone"
    · subst hft
      have hplc : ("phone" == "phone" &&
          decide ((stripPhonePunct (pyStrip (page bbox))).length < 5) &&
          isPlaceholderPhone (pyStrip (page bbox))) = false := by
        by_cases hlen : (stripPhonePunct (pyStrip (page bbox))).length < 5
        · simp [hph rfl hlen]
        · simp [decide_eq_false hlen]
      rw [if_neg (by intro hx; rw [hplc] at hx; exact Bool.false_ne_true hx)]
      by_cases h2 : (phonePatternsSearch (pyStrip (page bbox)) ||
          decide (7 ≤ (digitsOf (pyStrip (page bbox))).length)) = true
      · rw [if_pos (by simp [h2])]
      · rw [if_neg (by simp [h2]), if_pos hmatch]
    · have hbe : (ft == "phone") = false := beq_eq_false_iff_ne.mpr hft
      rw [if_neg (by simp [hbe]), if_neg (by simp [hbe]), if_pos hmatch]
  · intro doc anchors values mapping ft m best hnd hm hmax hfill s hs heq
    rw [overlay_values_enhanced, List.mem_filterMap] at hs
    obtain ⟨e, he, hse⟩ := hs
    have hft := (overlayStamp_spec hse).1
    have h3 : e.1 = ft := hft.symm.trans heq
    have he2 : (ft, e.2) ∈ anchors := by
      rw [← h3]
      exact he
    have hm2 : m = e.2 := nodup_keys_unique hnd hm he2
    have h4 : pyMaxConf e.2 = some best := by
      rw [← hm2]
      exact hmax
    have h5 : is_field_already_filled (pageAt doc best.page) e.1 best.placementBbox = true := by
      rw [h3]
      exact hfill
    have hnone : overlayStamp doc values mapping e = none :=
      overlayStamp_none_of_filled h4 h5
    rw [hnone] at hse
    exact absurd hse (by simp)

/-- C1 witness: an email region already holding an address is reported filled. -/
theorem C1_detector_witness :
    is_field_already_filled (fun _ => "john@test.com".toList) "email" ⟨0, 0, 1, 1⟩ = true :=
  C1_detector_amended.1 (fun _ => "john@test.com".toList) "email" ⟨0, 0, 1, 1⟩
    (by decide) (by decide) (by decide) (fun h => absurd h (by decide))

/-- C1 counterexample: pure placeholder punctuation after a phone label matches
the phone detection pattern, a run of at least seven phone characters, yet the
detector reports the region as not filled. -/
theorem C1_counterexample :
    detectionSearch "phone" "( ) - .".toList = true ∧
    is_field_already_filled (fun _ => "( ) - .".toList) "phone" ⟨0, 0, 1, 1⟩ = false := by
  constructor
  · decide
  · decide

end Theorems

end PdfFill
